import Mathlib

/-!
# Verification of the hogwarts icon-migration scripts

This file gives a shallow embedding of the three Python migration scripts
`scripts/replace-icons.py` (called script A below), `scripts/replace-lucide-icons.py`
(script B) and `scripts/replace_icons.py` (script C), and proves or refutes the
specification claims about them.

File texts are modelled as `List Char`.  Python's `re` word boundary `\b`,
whitespace `\s` and identifier characters `\w` are modelled over ASCII, which is
what every mapping-table entry and every pattern in the scripts uses.
-/

namespace IconMig

/-- A file text (Python `str`), modelled as a list of characters. -/
abbrev Str := List Char

/-- Convert a Lean string literal to the model representation. -/
def str (s : String) : Str := s.toList

/-- Python regex `\w` (ASCII): letters, digits and underscore. -/
def wordChar (c : Char) : Bool := c.isAlphanum || c == '_'

/-- Python `\s` / `str.strip` whitespace (ASCII). -/
def wsChar (c : Char) : Bool :=
  c == ' ' || c == '\t' || c == '\n' || c == '\r' || c == '\x0b' || c == '\x0c'

/-- `pfx p l` holds when `p` is an initial segment of `l` (Python `startswith`). -/
def pfx : Str → Str → Bool
  | [], _ => true
  | _ :: _, [] => false
  | a :: as, b :: bs => a == b && pfx as bs

/-- `hasSub p l` holds when `p` occurs as a contiguous substring of `l`
(Python `p in l`). -/
def hasSub (p : Str) : Str → Bool
  | [] => pfx p []
  | c :: cs => pfx p (c :: cs) || hasSub p cs

/-- Python `str.strip()` (leading part). -/
def stripL (l : Str) : Str := l.dropWhile wsChar

/-- Python `str.strip()` (trailing part). -/
def stripR (l : Str) : Str := (l.reverse.dropWhile wsChar).reverse

/-- Python `str.strip()`. -/
def pyStrip (l : Str) : Str := stripR (stripL l)

/-- Python `str.split(sep)` for a single-character separator: keeps empty parts. -/
def splitChar (sep : Char) : Str → List Str
  | [] => [[]]
  | c :: cs =>
    if c == sep then [] :: splitChar sep cs
    else
      match splitChar sep cs with
      | [] => [[c]]
      | h :: t => (c :: h) :: t

/-- Worker for `splitSeq`: `k` counts characters of a recognised separator
still to be skipped. -/
def splitSeqGo (sep : Str) : Nat → Str → List Str
  | 0, [] => [[]]
  | 0, c :: cs =>
    if sep ≠ [] ∧ pfx sep (c :: cs) = true then
      [] :: splitSeqGo sep (sep.length - 1) cs
    else
      match splitSeqGo sep 0 cs with
      | [] => [[c]]
      | h :: t => (c :: h) :: t
  | _ + 1, [] => [[]]
  | k + 1, _ :: cs => splitSeqGo sep k cs

/-- Python `str.split(sep)` for a multi-character separator (leftmost,
non-overlapping). -/
def splitSeq (sep : Str) (l : Str) : List Str := splitSeqGo sep 0 l

theorem splitSeqGo_skip (sep : Str) :
    ∀ (l : Str) (k : Nat), splitSeqGo sep k l = splitSeqGo sep 0 (List.drop k l) := by
  intro l
  induction l with
  | nil => intro k; cases k <;> rfl
  | cons c cs ih =>
    intro k
    cases k with
    | zero => rfl
    | succ k => rw [List.drop_succ_cons, splitSeqGo, ih k]

theorem splitSeq_cons (sep : Str) (c : Char) (cs : Str) :
    splitSeq sep (c :: cs) =
      if sep ≠ [] ∧ pfx sep (c :: cs) = true then
        [] :: splitSeq sep (List.drop sep.length (c :: cs))
      else
        match splitSeq sep cs with
        | [] => [[c]]
        | h :: t => (c :: h) :: t := by
  rw [splitSeq, splitSeqGo]
  split
  · rename_i h
    obtain ⟨m, hm⟩ : ∃ m, sep.length = m + 1 := by
      cases hsep : sep with
      | nil => exact absurd hsep h.1
      | cons a as => exact ⟨as.length, by simp [hsep]⟩
    rw [splitSeqGo_skip sep cs (sep.length - 1), hm]
    simp only [Nat.add_sub_cancel, List.drop_succ_cons]
    rfl
  · rfl

/-- Worker for `replaceAll` with a skip counter. -/
def repGo (p q : Str) : Nat → Str → Str
  | 0, [] => []
  | 0, c :: cs =>
    if p ≠ [] ∧ pfx p (c :: cs) = true then
      q ++ repGo p q (p.length - 1) cs
    else
      c :: repGo p q 0 cs
  | _ + 1, [] => []
  | k + 1, _ :: cs => repGo p q k cs

/-- Python `str.replace(p, q)`: replace every non-overlapping occurrence of `p`
by `q`, scanning left to right. -/
def replaceAll (p q l : Str) : Str := repGo p q 0 l

theorem repGo_skip (p q : Str) :
    ∀ (l : Str) (k : Nat), repGo p q k l = repGo p q 0 (List.drop k l) := by
  intro l
  induction l with
  | nil => intro k; cases k <;> rfl
  | cons c cs ih =>
    intro k
    cases k with
    | zero => rfl
    | succ k => rw [List.drop_succ_cons, repGo, ih k]

theorem replaceAll_cons (p q : Str) (c : Char) (cs : Str) :
    replaceAll p q (c :: cs) =
      if p ≠ [] ∧ pfx p (c :: cs) = true then
        q ++ replaceAll p q (List.drop p.length (c :: cs))
      else
        c :: replaceAll p q cs := by
  rw [replaceAll, repGo]
  split
  · rename_i h
    obtain ⟨m, hm⟩ : ∃ m, p.length = m + 1 := by
      cases hp : p with
      | nil => exact absurd hp h.1
      | cons a as => exact ⟨as.length, by simp [hp]⟩
    rw [repGo_skip p q cs (p.length - 1), hm]
    simp only [Nat.add_sub_cancel, List.drop_succ_cons]
    rfl
  · rfl

/-- Right word-boundary test: the position just after a candidate match is a
boundary when the remaining text is empty or starts with a non-word character
(valid for patterns made of word characters). -/
def wordEnd : Str → Bool
  | [] => true
  | c :: _ => !wordChar c

/-- Worker for `subWW` with a skip counter. -/
def subWWGo (S T : Str) : Nat → Bool → Str → Str
  | 0, _, [] => []
  | 0, lb, c :: cs =>
    if S ≠ [] ∧ lb = true ∧ pfx S (c :: cs) = true ∧
        wordEnd (List.drop S.length (c :: cs)) = true then
      T ++ subWWGo S T (S.length - 1) (!wordChar (S.getLastD '_')) cs
    else
      c :: subWWGo S T 0 (!wordChar c) cs
  | _ + 1, _, [] => []
  | k + 1, lb, _ :: cs => subWWGo S T k lb cs

/-- One pass of Python `re.sub(r'\b' + S + r'\b', T, text)` for a pattern `S`
made of word characters.  The flag `lb` records whether the current scanning
position is at the start of the text or preceded by a non-word character
(equivalently, whether `\b` holds there). -/
def subWW (S T : Str) (lb : Bool) (l : Str) : Str := subWWGo S T 0 lb l

theorem subWWGo_skip (S T : Str) :
    ∀ (l : Str) (k : Nat) (lb : Bool),
      subWWGo S T k lb l = subWWGo S T 0 lb (List.drop k l) := by
  intro l
  induction l with
  | nil => intro k lb; cases k <;> rfl
  | cons c cs ih =>
    intro k lb
    cases k with
    | zero => rfl
    | succ k => rw [List.drop_succ_cons, subWWGo, ih k]

theorem subWW_cons (S T : Str) (lb : Bool) (c : Char) (cs : Str) :
    subWW S T lb (c :: cs) =
      if S ≠ [] ∧ lb = true ∧ pfx S (c :: cs) = true ∧
          wordEnd (List.drop S.length (c :: cs)) = true then
        T ++ subWW S T (!wordChar (S.getLastD '_')) (List.drop S.length (c :: cs))
      else
        c :: subWW S T (!wordChar c) cs := by
  rw [subWW, subWWGo]
  split
  · rename_i h
    obtain ⟨m, hm⟩ : ∃ m, S.length = m + 1 := by
      cases hS : S with
      | nil => exact absurd hS h.1
      | cons a as => exact ⟨as.length, by simp [hS]⟩
    rw [subWWGo_skip S T cs (S.length - 1), hm]
    simp only [Nat.add_sub_cancel, List.drop_succ_cons]
    rfl
  · rfl

/-- `hasWW S lb t = true` iff `t` contains a whole-word occurrence of `S`
(`re.search(r'\bS\b', t)` succeeds), where `lb` describes the left context as in
`subWW`. -/
def hasWW (S : Str) : Bool → Str → Bool
  | _, [] => false
  | lb, c :: cs =>
    (lb && pfx S (c :: cs) && wordEnd (List.drop S.length (c :: cs))) ||
      hasWW S (!wordChar c) cs

/-- The icon mapping table of script B (`replace-lucide-icons.py`), in source
(dict-insertion) order. -/
def tableB : List (Str × Str) :=
  [ (str "AlertCircle", str "CircleAlert")
  , (str "AlertTriangle", str "TriangleAlert")
  , (str "CheckCircle", str "CircleCheck")
  , (str "CheckCircle2", str "CircleCheck")
  , (str "XCircle", str "CircleX")
  , (str "MoreHorizontal", str "Ellipsis")
  , (str "MoreVertical", str "EllipsisVertical")
  , (str "Edit", str "Pencil")
  , (str "Loader2", str "LoaderCircle")
  , (str "Filter", str "ListFilter")
  , (str "Home", str "House")
  , (str "Unlock", str "LockOpen") ]

/-- The icon mapping table of script C (`replace_icons.py`): the regex keys
`r'\bName\b'` are recorded by their literal name part. -/
def tableC : List (Str × Str) :=
  [ (str "AlertCircle", str "CircleAlert")
  , (str "AlertTriangle", str "TriangleAlert")
  , (str "CheckCircle", str "CircleCheck")
  , (str "XCircle", str "CircleX")
  , (str "MoreHorizontal", str "Ellipsis")
  , (str "MoreVertical", str "EllipsisVertical")
  , (str "Loader2", str "LoaderCircle")
  , (str "Unlock", str "LockOpen") ]

/-- The icon mapping table of script A (`replace-icons.py`). -/
def tableA : List (Str × Str) :=
  [ (str "AlertCircle", str "CircleAlert")
  , (str "AlertTriangle", str "TriangleAlert")
  , (str "AlertOctagon", str "OctagonAlert")
  , (str "CheckCircle", str "CircleCheck")
  , (str "CheckCircle2", str "CircleCheckBig")
  , (str "XCircle", str "CircleX")
  , (str "MoreHorizontal", str "Ellipsis")
  , (str "MoreVertical", str "EllipsisVertical")
  , (str "Loader2", str "LoaderCircle")
  , (str "PlayCircle", str "CirclePlay")
  , (str "PauseCircle", str "CirclePause")
  , (str "StopCircle", str "CircleStop")
  , (str "PlusCircle", str "CirclePlus")
  , (str "MinusCircle", str "CircleMinus")
  , (str "HelpCircle", str "CircleHelp")
  , (str "CalendarIcon", str "Calendar")
  , (str "ArrowUpIcon", str "ArrowUp")
  , (str "ArrowDownIcon", str "ArrowDown")
  , (str "InfoIcon", str "Info") ]

/-- Script A's `MISSING_ICONS`: icons kept on `lucide-react`. -/
def missingA : List Str :=
  [ str "LucideIcon", str "BarChart", str "BarChart3", str "PieChart"
  , str "FileBarChart", str "GitCommit", str "GitBranch", str "GitFork"
  , str "GitPullRequest" ]

/-- `dict.get(k, k)`: look a name up in a mapping table, defaulting to itself. -/
def lookupTab (tab : List (Str × Str)) (k : Str) : Str :=
  match tab.find? (fun p => p.1 == k) with
  | some p => p.2
  | none => k

/-- Apply every whole-word substitution of a mapping table in table order
(script B's inner loop over `ICON_MAPPINGS.items()`, script C's loop over its
regex table). -/
def applyTab (tab : List (Str × Str)) (t : Str) : Str :=
  tab.foldl (fun acc p => subWW p.1 p.2 true acc) t

/-- The literal module reference strings replaced by script C. -/
def fromLucideD : Str := str "from \"lucide-react\""

/-- See `fromLucideD`; the single-quoted variant. -/
def fromLucideS : Str := str "from 'lucide-react'"

/-- Replacement module reference (double-quoted), script C. -/
def fromAliD : Str := str "from \"@aliimam/icons\""

/-- Replacement module reference (single-quoted), script C. -/
def fromAliS : Str := str "from '@aliimam/icons'"

/-- The text transformation performed by script C's `process_file` on a file's
content: replace both quoted `from 'lucide-react'` module references, then apply
every whole-word icon rename. -/
def processTextC (t : Str) : Str :=
  applyTab tableC (replaceAll fromLucideS fromAliS (replaceAll fromLucideD fromAliD t))

/-! ## Regex matchers for the import-declaration patterns -/

/-- Consume one expected character. -/
def expectCh (c : Char) : Str → Option Str
  | [] => none
  | d :: ds => if d == c then some ds else none

/-- Consume an expected literal sequence. -/
def expectSeq (p : Str) (l : Str) : Option Str :=
  if pfx p l then some (List.drop p.length l) else none

/-- Consume `\s+` (one or more whitespace characters, greedily). -/
def ws1 : Str → Option Str
  | [] => none
  | c :: cs => if wsChar c then some (cs.dropWhile wsChar) else none

/-- Consume `["']` (either quote character). -/
def expectQuote : Str → Option Str
  | [] => none
  | c :: cs => if c == '"' || c == '\'' then some cs else none

/-- Consume an optional semicolon (`;?`, greedy). -/
def semiOpt : Str → Str
  | ';' :: cs => cs
  | l => l

/-- Try to match script B's import pattern
`import\s+\{([^}]+)\}\s+from\s+["']lucide-react["'];?` at the head of `l`;
returns the captured group and the rest of the text after the match. -/
def matchImpB (l : Str) : Option (Str × Str) :=
  (expectSeq (str "import") l).bind fun r1 =>
  (ws1 r1).bind fun r2 =>
  (expectCh '\x7b' r2).bind fun r3 =>
  let g := r3.takeWhile (fun c => c != '\x7d')
  let r4 := r3.dropWhile (fun c => c != '\x7d')
  if g.isEmpty then none else
  (expectCh '\x7d' r4).bind fun r5 =>
  (ws1 r5).bind fun r6 =>
  (expectSeq (str "from") r6).bind fun r7 =>
  (ws1 r7).bind fun r8 =>
  (expectQuote r8).bind fun r9 =>
  (expectSeq (str "lucide-react") r9).bind fun r10 =>
  (expectQuote r10).bind fun r11 =>
  some (g, semiOpt r11)

/-- Try to match script A's import pattern
`import\s*\{([^}]+)\}\s*from\s*["']lucide-react["']` at the head of `l`. -/
def matchImpA (l : Str) : Option (Str × Str) :=
  (expectSeq (str "import") l).bind fun r1 =>
  (expectCh '\x7b' (r1.dropWhile wsChar)).bind fun r3 =>
  let g := r3.takeWhile (fun c => c != '\x7d')
  let r4 := r3.dropWhile (fun c => c != '\x7d')
  if g.isEmpty then none else
  (expectCh '\x7d' r4).bind fun r5 =>
  (expectSeq (str "from") (r5.dropWhile wsChar)).bind fun r7 =>
  (expectQuote (r7.dropWhile wsChar)).bind fun r9 =>
  (expectSeq (str "lucide-react") r9).bind fun r10 =>
  (expectQuote r10).bind fun r11 =>
  some (g, r11)

theorem expectCh_len {c : Char} {l r : Str} (h : expectCh c l = some r) :
    r.length < l.length := by
  cases l with
  | nil => simp [expectCh] at h
  | cons d ds =>
    simp only [expectCh] at h
    split at h
    · cases h; simp
    · cases h

theorem expectQuote_len {l r : Str} (h : expectQuote l = some r) :
    r.length < l.length := by
  cases l with
  | nil => simp [expectQuote] at h
  | cons d ds =>
    simp only [expectQuote] at h
    split at h
    · cases h; simp
    · cases h

theorem expectSeq_len {p l r : Str} (h : expectSeq p l = some r) :
    r.length + p.length = l.length ∨ r.length ≤ l.length := by
  simp only [expectSeq] at h
  split at h
  · cases h; right; simp
  · cases h

theorem expectSeq_len_le {p l r : Str} (h : expectSeq p l = some r) :
    r.length ≤ l.length := by
  simp only [expectSeq] at h
  split at h
  · cases h; simp
  · cases h

theorem ws1_len {l r : Str} (h : ws1 l = some r) : r.length < l.length := by
  cases l with
  | nil => simp [ws1] at h
  | cons c cs =>
    simp only [ws1] at h
    split at h
    · cases h
      have := List.Sublist.length_le (List.dropWhile_sublist (l := cs) wsChar)
      simp only [List.length_cons]
      omega
    · cases h

theorem dropWhile_len_le (p : Char → Bool) (l : Str) :
    (l.dropWhile p).length ≤ l.length :=
  List.Sublist.length_le (List.dropWhile_sublist p)

theorem semiOpt_len_le (l : Str) : (semiOpt l).length ≤ l.length := by
  unfold semiOpt
  split
  · simp
  · exact Nat.le_refl _

theorem matchImpB_len {l g r : Str} (h : matchImpB l = some (g, r)) :
    r.length < l.length := by
  simp only [matchImpB, Option.bind_eq_some] at h
  obtain ⟨r1, h1, r2, h2, r3, h3, h'⟩ := h
  split at h'
  · cases h'
  · simp only [Option.bind_eq_some] at h'
    obtain ⟨r5, h5, r6, h6, r7, h7, r8, h8, r9, h9, r10, h10, r11, h11, heq⟩ := h'
    have hr : r = semiOpt r11 := by
      have e := Option.some.inj heq
      rw [Prod.mk.injEq] at e
      exact e.2.symm
    have hr' : r.length ≤ r11.length := by
      rw [hr]; exact semiOpt_len_le r11
    have e1 := expectSeq_len_le h1
    have e2 := ws1_len h2
    have e3 := expectCh_len h3
    have e4 := dropWhile_len_le (fun c => c != '\x7d') r3
    have e5 := expectCh_len h5
    have e6 := ws1_len h6
    have e7 := expectSeq_len_le h7
    have e8 := ws1_len h8
    have e9 := expectQuote_len h9
    have e10 := expectSeq_len_le h10
    have e11 := expectQuote_len h11
    omega

theorem matchImpA_len {l g r : Str} (h : matchImpA l = some (g, r)) :
    r.length < l.length := by
  simp only [matchImpA, Option.bind_eq_some] at h
  obtain ⟨r1, h1, r3, h3, h'⟩ := h
  split at h'
  · cases h'
  · simp only [Option.bind_eq_some] at h'
    obtain ⟨r5, h5, r7, h7, r9, h9, r10, h10, r11, h11, heq⟩ := h'
    have hr : r = r11 := by
      have e := Option.some.inj heq
      rw [Prod.mk.injEq] at e
      exact e.2.symm
    subst hr
    have e1 := expectSeq_len_le h1
    have e1' := dropWhile_len_le wsChar r1
    have e3 := expectCh_len h3
    have e4 := dropWhile_len_le (fun c => c != '\x7d') r3
    have e5 := expectCh_len h5
    have e5' := dropWhile_len_le wsChar r5
    have e7 := expectSeq_len_le h7
    have e7' := dropWhile_len_le wsChar r7
    have e9 := expectQuote_len h9
    have e10 := expectSeq_len_le h10
    have e11 := expectQuote_len h11
    omega

theorem expectCh_sfx {c : Char} {l r : Str} (h : expectCh c l = some r) : r <:+ l := by
  cases l with
  | nil => simp [expectCh] at h
  | cons d ds =>
    simp only [expectCh] at h
    split at h
    · cases h; exact List.suffix_cons _ _
    · cases h

theorem expectQuote_sfx {l r : Str} (h : expectQuote l = some r) : r <:+ l := by
  cases l with
  | nil => simp [expectQuote] at h
  | cons d ds =>
    simp only [expectQuote] at h
    split at h
    · cases h; exact List.suffix_cons _ _
    · cases h

theorem expectSeq_sfx {p l r : Str} (h : expectSeq p l = some r) : r <:+ l := by
  simp only [expectSeq] at h
  split at h
  · cases h; exact List.drop_suffix _ _
  · cases h

theorem ws1_sfx {l r : Str} (h : ws1 l = some r) : r <:+ l := by
  cases l with
  | nil => simp [ws1] at h
  | cons c cs =>
    simp only [ws1] at h
    split at h
    · cases h
      exact (List.dropWhile_suffix wsChar).trans (List.suffix_cons c cs)
    · cases h

theorem semiOpt_sfx (l : Str) : semiOpt l <:+ l := by
  unfold semiOpt
  split
  · rename_i cs; exact List.suffix_cons _ _
  · exact List.suffix_refl _

theorem matchImpB_sfx {l g r : Str} (h : matchImpB l = some (g, r)) : r <:+ l := by
  simp only [matchImpB, Option.bind_eq_some] at h
  obtain ⟨r1, h1, r2, h2, r3, h3, h'⟩ := h
  split at h'
  · cases h'
  · simp only [Option.bind_eq_some] at h'
    obtain ⟨r5, h5, r6, h6, r7, h7, r8, h8, r9, h9, r10, h10, r11, h11, heq⟩ := h'
    have hr : r = semiOpt r11 := by
      have e := Option.some.inj heq
      rw [Prod.mk.injEq] at e
      exact e.2.symm
    subst hr
    exact ((((((((((((semiOpt_sfx r11).trans (expectQuote_sfx h11)).trans
      (expectSeq_sfx h10)).trans (expectQuote_sfx h9)).trans (ws1_sfx h8)).trans
      (expectSeq_sfx h7)).trans (ws1_sfx h6)).trans (expectCh_sfx h5)).trans
      (List.dropWhile_suffix _)).trans (expectCh_sfx h3)).trans (ws1_sfx h2)).trans
      (expectSeq_sfx h1))

theorem matchImpA_sfx {l g r : Str} (h : matchImpA l = some (g, r)) : r <:+ l := by
  simp only [matchImpA, Option.bind_eq_some] at h
  obtain ⟨r1, h1, r3, h3, h'⟩ := h
  split at h'
  · cases h'
  · simp only [Option.bind_eq_some] at h'
    obtain ⟨r5, h5, r7, h7, r9, h9, r10, h10, r11, h11, heq⟩ := h'
    have hr : r = r11 := by
      have e := Option.some.inj heq
      rw [Prod.mk.injEq] at e
      exact e.2.symm
    subst hr
    exact ((((((((((expectQuote_sfx h11).trans (expectSeq_sfx h10)).trans
      (expectQuote_sfx h9)).trans (List.dropWhile_suffix _)).trans
      (expectSeq_sfx h7)).trans (List.dropWhile_suffix _)).trans
      (expectCh_sfx h5)).trans (List.dropWhile_suffix _)).trans
      (expectCh_sfx h3)).trans (List.dropWhile_suffix _)).trans (expectSeq_sfx h1)

/-- A suffix sits at a computable offset. -/
theorem drop_of_sfx {l r : Str} (h : r <:+ l) :
    List.drop (l.length - r.length) l = r := by
  obtain ⟨a, rfl⟩ := h
  simp [List.drop_left]

/-- `re.search` for script B's pattern: find the leftmost match, returning
(text before the match, matched text, captured group, text after). -/
def scanB : Str → Option (Str × Str × Str × Str)
  | [] => none
  | c :: cs =>
    match matchImpB (c :: cs) with
    | some (g, r) =>
        some ([], List.take ((c :: cs).length - r.length) (c :: cs), g, r)
    | none =>
      match scanB cs with
      | some (pre, stmt, g, r) => some (c :: pre, stmt, g, r)
      | none => none

/-- `re.search` for script A's pattern: leftmost match, returning
(text before, matched text, captured group, text after). -/
def scanA : Str → Option (Str × Str × Str × Str)
  | [] => none
  | c :: cs =>
    match matchImpA (c :: cs) with
    | some (g, r) =>
        some ([], List.take ((c :: cs).length - r.length) (c :: cs), g, r)
    | none =>
      match scanA cs with
      | some (pre, stmt, g, r) => some (c :: pre, stmt, g, r)
      | none => none

/-- Script B's `extract_lucide_imports`: the matched import statement and the
stripped, non-empty comma-separated specifiers. -/
def extractB (t : Str) : Option (Str × List Str) :=
  match scanB t with
  | none => none
  | some (_, stmt, g, _) =>
      some (stmt, ((splitChar ',' g).map pyStrip).filter (fun s => !s.isEmpty))

/-- Script B's `map_icon_names` on one specifier.  `none` models the
`ValueError` raised when unpacking a specifier with more than one ` as `. -/
def mapOneB (icon : Str) : Option Str :=
  if hasSub (str " as ") icon then
    match splitSeq (str " as ") icon with
    | [a, b] => some (lookupTab tableB (pyStrip a) ++ str " as " ++ pyStrip b)
    | _ => none
  else
    some (lookupTab tableB icon)

/-- Script B's `map_icon_names` on the specifier list. -/
def mapListB : List Str → Option (List Str)
  | [] => some []
  | i :: is =>
    match mapOneB i, mapListB is with
    | some m, some ms => some (m :: ms)
    | _, _ => none

/-- Python `sep.join(parts)`. -/
def joinSep (sep : Str) : List Str → Str
  | [] => []
  | [x] => x
  | x :: y :: rest => x ++ sep ++ joinSep sep (y :: rest)

/-- Script B's new import statement: single-line for at most 3 specifiers,
multi-line otherwise. -/
def buildImpB (mapped : List Str) : Str :=
  if mapped.length ≤ 3 then
    str "import \x7b " ++ joinSep (str ", ") mapped ++
      str " \x7d from \"@aliimam/icons\";"
  else
    str "import \x7b\n  " ++ joinSep (str ",\n  ") mapped ++
      str "\n\x7d from \"@aliimam/icons\";"

/-- Worker for `reSplitB` (script B's `re.split`-based body rewrite): `k` is a
skip counter for the remainder of a recognised match, `acc` accumulates the
reversed unmatched text of the current part. -/
def reSplitGoB (f : Str → Str) : Nat → Str → Str → Str
  | 0, acc, [] => f acc.reverse
  | 0, acc, c :: cs =>
    match matchImpB (c :: cs) with
    | some (_, r) =>
        f acc.reverse ++ List.take ((c :: cs).length - r.length) (c :: cs) ++
          reSplitGoB f ((c :: cs).length - r.length - 1) [] cs
    | none => reSplitGoB f 0 (c :: acc) cs
  | _ + 1, acc, [] => f acc.reverse
  | k + 1, acc, _ :: cs => reSplitGoB f k acc cs

/-- Script B's `replace_icon_names_in_code`: split the text on import-pattern
matches, apply `f` to the non-matching parts, and reassemble. -/
def reSplitB (f : Str → Str) (t : Str) : Str := reSplitGoB f 0 [] t

theorem reSplitGoB_skip (f : Str → Str) :
    ∀ (l : Str) (k : Nat) (acc : Str),
      reSplitGoB f k acc l = reSplitGoB f 0 acc (List.drop k l) := by
  intro l
  induction l with
  | nil => intro k acc; cases k <;> rfl
  | cons c cs ih =>
    intro k acc
    cases k with
    | zero => rfl
    | succ k => rw [List.drop_succ_cons, reSplitGoB, ih k]

theorem reSplitGoB_match {f : Str → Str} {acc : Str} {c : Char} {cs g r : Str}
    (h : matchImpB (c :: cs) = some (g, r)) :
    reSplitGoB f 0 acc (c :: cs) =
      f acc.reverse ++ List.take ((c :: cs).length - r.length) (c :: cs) ++
        reSplitGoB f 0 [] r := by
  have hlt := matchImpB_len h
  have hsfx := matchImpB_sfx h
  rw [reSplitGoB, h]
  show f acc.reverse ++ List.take ((c :: cs).length - r.length) (c :: cs) ++
      reSplitGoB f ((c :: cs).length - r.length - 1) [] cs = _
  rw [reSplitGoB_skip f cs ((c :: cs).length - r.length - 1) []]
  have harith : List.drop ((c :: cs).length - r.length - 1) cs =
      List.drop ((c :: cs).length - r.length) (c :: cs) := by
    obtain ⟨m, hm⟩ : ∃ m, (c :: cs).length - r.length = m + 1 := by
      refine ⟨(c :: cs).length - r.length - 1, ?_⟩
      simp only [List.length_cons] at *
      omega
    rw [hm]
    simp only [Nat.add_sub_cancel, List.drop_succ_cons]
  rw [harith, drop_of_sfx hsfx]

theorem reSplitGoB_nomatch {f : Str → Str} {acc : Str} {c : Char} {cs : Str}
    (h : matchImpB (c :: cs) = none) :
    reSplitGoB f 0 acc (c :: cs) = reSplitGoB f 0 (c :: acc) cs := by
  rw [reSplitGoB, h]

/-- The text transformation performed by script B's `process_file`. -/
def processTextB (t : Str) : Str :=
  if !hasSub (str "lucide-react") t then t
  else
    match extractB t with
    | none => t
    | some (stmt, icons) =>
      match mapListB icons with
      | none => t
      | some mapped =>
          reSplitB (applyTab tableB) (replaceAll stmt (buildImpB mapped) t)

/-! ## Script A -/

/-- Script A's inline specifier extraction: split on commas and strip, keeping
empty entries. -/
def iconsOfA (g : Str) : List Str := (splitChar ',' g).map pyStrip

/-- Script A's replacement import text: the `@aliimam/icons` declaration,
followed (when some icons are missing there) by a residual `lucide-react`
declaration on the next line. -/
def buildImpA (mapped missing : List Str) : Str :=
  str "import \x7b " ++ joinSep (str ", ") mapped ++
    str " \x7d from \"@aliimam/icons\"" ++
    (if missing.isEmpty then [] else
      str "\nimport \x7b " ++ joinSep (str ", ") missing ++
        str " \x7d from \"lucide-react\"")

/-- Worker for `resubA` with a skip counter. -/
def resubGoA (repl : Str) : Nat → Str → Str
  | 0, [] => []
  | 0, c :: cs =>
    match matchImpA (c :: cs) with
    | some (_, r) => repl ++ resubGoA repl ((c :: cs).length - r.length - 1) cs
    | none => c :: resubGoA repl 0 cs
  | _ + 1, [] => []
  | k + 1, _ :: cs => resubGoA repl k cs

/-- `re.sub` of script A's import pattern: replace every match by `repl`. -/
def resubA (repl : Str) (l : Str) : Str := resubGoA repl 0 l

theorem resubGoA_skip (repl : Str) :
    ∀ (l : Str) (k : Nat), resubGoA repl k l = resubGoA repl 0 (List.drop k l) := by
  intro l
  induction l with
  | nil => intro k; cases k <;> rfl
  | cons c cs ih =>
    intro k
    cases k with
    | zero => rfl
    | succ k => rw [List.drop_succ_cons, resubGoA, ih k]

theorem resubA_match {repl : Str} {c : Char} {cs g r : Str}
    (h : matchImpA (c :: cs) = some (g, r)) :
    resubA repl (c :: cs) = repl ++ resubA repl r := by
  have hlt := matchImpA_len h
  have hsfx := matchImpA_sfx h
  rw [resubA, resubGoA, h]
  show repl ++ resubGoA repl ((c :: cs).length - r.length - 1) cs = _
  rw [resubGoA_skip repl cs ((c :: cs).length - r.length - 1)]
  have harith : List.drop ((c :: cs).length - r.length - 1) cs =
      List.drop ((c :: cs).length - r.length) (c :: cs) := by
    obtain ⟨m, hm⟩ : ∃ m, (c :: cs).length - r.length = m + 1 := by
      refine ⟨(c :: cs).length - r.length - 1, ?_⟩
      simp only [List.length_cons] at *
      omega
    rw [hm]
    simp only [Nat.add_sub_cancel, List.drop_succ_cons]
  rw [harith, drop_of_sfx hsfx]
  rfl

theorem resubA_nomatch {repl : Str} {c : Char} {cs : Str}
    (h : matchImpA (c :: cs) = none) :
    resubA repl (c :: cs) = c :: resubA repl cs := by
  rw [resubA, resubGoA, h]
  rfl

/-- Match the tail of a JSX opening tag: the group `(\s|/>|>)` of script A's
pattern `<Name(\s|/>|>)`, returning the matched group text and the rest. -/
def altTag : Str → Option (Str × Str)
  | [] => none
  | c :: cs =>
    if wsChar c then some ([c], cs)
    else if c == '/' then
      match cs with
      | d :: ds => if d == '>' then some (['/', '>'], ds) else none
      | [] => none
    else if c == '>' then some (['>'], cs)
    else none

theorem altTag_len {l a r : Str} (h : altTag l = some (a, r)) :
    r.length < l.length := by
  cases l with
  | nil => simp [altTag] at h
  | cons c cs =>
    simp only [altTag] at h
    split at h
    · cases h; simp
    · split at h
      · cases cs with
        | nil => cases h
        | cons d ds =>
          by_cases hd : (d == '>') = true
          · simp only [hd, if_true] at h
            cases h
            simp
            omega
          · simp only [hd] at h
            simp at h
      · split at h
        · cases h; simp
        · cases h

/-- Match `S(\s|/>|>)` (the part after `<`). -/
def tagTail (S : Str) (l : Str) : Option (Str × Str) :=
  (expectSeq S l).bind fun r => altTag r

theorem tagTail_len {S l a r : Str} (h : tagTail S l = some (a, r)) :
    r.length < l.length := by
  simp only [tagTail, Option.bind_eq_some] at h
  obtain ⟨r1, h1, h2⟩ := h
  exact Nat.lt_of_lt_of_le (altTag_len h2) (expectSeq_len_le h1)

/-- Worker for `subTagOpen` with a skip counter. -/
def subTagGo (S T : Str) : Nat → Str → Str
  | 0, [] => []
  | 0, c :: cs =>
    if c == '<' then
      match tagTail S cs with
      | some (a, r) => ('<' :: (T ++ a)) ++ subTagGo S T (cs.length - r.length) cs
      | none => c :: subTagGo S T 0 cs
    else c :: subTagGo S T 0 cs
  | _ + 1, [] => []
  | k + 1, _ :: cs => subTagGo S T k cs

/-- Script A's `re.sub(rf'<{S}(\s|/>|>)', rf'<{T}\1', ·)`. -/
def subTagOpen (S T l : Str) : Str := subTagGo S T 0 l

theorem altTag_sfx {l a r : Str} (h : altTag l = some (a, r)) : r <:+ l := by
  cases l with
  | nil => simp [altTag] at h
  | cons c cs =>
    simp only [altTag] at h
    split at h
    · cases h; exact List.suffix_cons _ _
    · split at h
      · cases cs with
        | nil => cases h
        | cons d ds =>
          by_cases hd : (d == '>') = true
          · simp only [hd, if_true] at h
            cases h
            exact (List.suffix_cons _ _).trans (List.suffix_cons _ _)
          · simp only [hd] at h
            simp at h
      · split at h
        · cases h; exact List.suffix_cons _ _
        · cases h

theorem tagTail_sfx {S l a r : Str} (h : tagTail S l = some (a, r)) : r <:+ l := by
  simp only [tagTail, Option.bind_eq_some] at h
  obtain ⟨r1, h1, h2⟩ := h
  exact (altTag_sfx h2).trans (expectSeq_sfx h1)

theorem subTagGo_skip (S T : Str) :
    ∀ (l : Str) (k : Nat), subTagGo S T k l = subTagGo S T 0 (List.drop k l) := by
  intro l
  induction l with
  | nil => intro k; cases k <;> rfl
  | cons c cs ih =>
    intro k
    cases k with
    | zero => rfl
    | succ k => rw [List.drop_succ_cons, subTagGo, ih k]

theorem subTagOpen_match {S T : Str} {c : Char} {cs a r : Str}
    (hc : (c == '<') = true) (h : tagTail S cs = some (a, r)) :
    subTagOpen S T (c :: cs) = ('<' :: (T ++ a)) ++ subTagOpen S T r := by
  have hsfx := tagTail_sfx h
  rw [subTagOpen, subTagGo, if_pos hc, h]
  show ('<' :: (T ++ a)) ++ subTagGo S T (cs.length - r.length) cs = _
  rw [subTagGo_skip S T cs (cs.length - r.length), drop_of_sfx hsfx]
  rfl

theorem subTagOpen_nomatch {S T : Str} {c : Char} {cs : Str}
    (h : tagTail S cs = none) :
    subTagOpen S T (c :: cs) = c :: subTagOpen S T cs := by
  rw [subTagOpen, subTagGo]
  by_cases hc : (c == '<') = true
  · rw [if_pos hc, h]
    rfl
  · rw [if_neg hc]
    rfl

theorem subTagOpen_notag {S T : Str} {c : Char} {cs : Str}
    (h : (c == '<') = false) :
    subTagOpen S T (c :: cs) = c :: subTagOpen S T cs := by
  rw [subTagOpen, subTagGo, if_neg (by simp [h])]
  rfl

/-- Script A's `re.sub(rf'</{S}>', rf'</{T}>', ·)`: a literal replacement. -/
def subTagClose (S T : Str) (t : Str) : Str :=
  replaceAll ('<' :: '/' :: S ++ ['>']) ('<' :: '/' :: T ++ ['>']) t

/-- The text transformation of script A's `process_file`.  `none` models the
early `return False` paths ("No lucide-react import found" and "All icons are
missing from @aliimam/icons"), on which the file is left unchanged. -/
def processTextA (t : Str) : Option Str :=
  match scanA t with
  | none => none
  | some (_, _, g, _) =>
    let icons := iconsOfA g
    let missing := icons.filter (fun i => missingA.contains i)
    let alii := icons.filter (fun i => !missingA.contains i)
    if alii.isEmpty then none
    else
      let mapped := alii.map (lookupTab tableA)
      let t1 := resubA (buildImpA mapped missing) t
      some (tableA.foldl
        (fun acc p =>
          if hasSub p.1 g then subTagClose p.1 p.2 (subTagOpen p.1 p.2 acc)
          else acc)
        t1)

/-! ## Word-run decomposition

A text decomposes uniquely into maximal runs of word characters and runs of
non-word characters.  `re.sub(r'\bS\b', T, ·)` for an identifier `S` acts on
this decomposition by replacing exactly the word runs equal to `S` by `T`. -/

/-- Prepend a character to a run decomposition, merging it into the first run
when the word-ness matches. -/
def consRun (c : Char) : List Str → List Str
  | [] => [[c]]
  | [] :: rs => [c] :: [] :: rs
  | (d :: ds) :: rs =>
    if wordChar c == wordChar d then (c :: d :: ds) :: rs
    else [c] :: (d :: ds) :: rs

/-- Split a text into maximal runs of characters of equal word-ness. -/
def decompose : Str → List Str
  | [] => []
  | c :: cs => consRun c (decompose cs)

/-- The word-ness of a run (its head character's class). -/
def runKind : Str → Bool
  | [] => false
  | c :: _ => wordChar c

/-- All characters of `r` have word-ness `b`. -/
def homog (b : Bool) (r : Str) : Bool := r.all (fun c => wordChar c == b)

/-- A list of runs is a valid decomposition after a run of kind `k`:
runs are nonempty, homogeneous, and adjacent runs alternate in kind. -/
def validRuns : Option Bool → List Str → Bool
  | _, [] => true
  | k, r :: rs =>
    !r.isEmpty && homog (runKind r) r && (k != some (runKind r)) &&
      validRuns (some (runKind r)) rs

theorem flatten_decompose : ∀ t : Str, (decompose t).flatten = t := by
  intro t
  induction t with
  | nil => rfl
  | cons c cs ih =>
    rw [decompose]
    cases hd : decompose cs with
    | nil =>
      have hcs : cs = [] := by
        rw [hd] at ih
        simpa using ih.symm
      rw [hcs, consRun]
      rfl
    | cons r rs =>
      rw [hd] at ih
      cases r with
      | nil =>
        rw [consRun, List.flatten_cons, List.singleton_append, ih]
      | cons d ds =>
        rw [consRun]
        by_cases hw : (wordChar c == wordChar d) = true
        · rw [if_pos hw, List.flatten_cons, List.cons_append, ← List.flatten_cons, ih]
        · rw [if_neg hw, List.flatten_cons, List.singleton_append, ih]

/-- Compatibility of a preceding-run kind with a text: the text's head must not
extend a run of kind `k`. -/
def kindOK (k : Option Bool) : Str → Prop
  | [] => True
  | c :: _ => k ≠ some (wordChar c)

theorem kindOK_none (t : Str) : kindOK none t := by
  cases t with
  | nil => trivial
  | cons c cs => simp [kindOK]

/-- The first run of a decomposition starts with the first character. -/
theorem decompose_head (c : Char) (cs : Str) :
    ∃ r rs, decompose (c :: cs) = (c :: r) :: rs := by
  rw [decompose]
  cases decompose cs with
  | nil => exact ⟨[], [], rfl⟩
  | cons r rs =>
    cases r with
    | nil => exact ⟨[], [] :: rs, rfl⟩
    | cons d ds =>
      rw [consRun]
      by_cases hw : (wordChar c == wordChar d) = true
      · rw [if_pos hw]; exact ⟨d :: ds, rs, rfl⟩
      · rw [if_neg hw]; exact ⟨[], (d :: ds) :: rs, rfl⟩

theorem decompose_valid : ∀ (t : Str) (k : Option Bool), kindOK k t →
    validRuns k (decompose t) = true := by
  intro t
  induction t with
  | nil => intro k _; rfl
  | cons c cs ih =>
    intro k hk
    have hkc : k ≠ some (wordChar c) := hk
    have ihv := ih none (kindOK_none cs)
    rw [decompose]
    cases hd : decompose cs with
    | nil =>
      rw [consRun, validRuns, validRuns]
      have h2 : homog (runKind [c]) [c] = true := by
        rw [homog, runKind, List.all_cons]
        simp
      have h3 : (k != some (runKind [c])) = true := by
        rw [runKind]
        simpa [bne_iff_ne] using hkc
      rw [h2, h3]
      rfl
    | cons r rs =>
      rw [hd] at ihv
      cases r with
      | nil =>
        rw [validRuns] at ihv
        simp [List.isEmpty] at ihv
      | cons d ds =>
        rw [validRuns] at ihv
        simp only [Bool.and_eq_true] at ihv
        obtain ⟨⟨⟨g1, g2⟩, g3⟩, g4⟩ := ihv
        rw [consRun]
        by_cases hw : (wordChar c == wordChar d) = true
        · rw [if_pos hw]
          have hcd : wordChar c = wordChar d := by simpa using hw
          rw [validRuns]
          have h2 : homog (runKind (c :: d :: ds)) (c :: d :: ds) = true := by
            rw [runKind, homog, List.all_cons, hcd]
            have g2' : (d :: ds).all (fun x => wordChar x == wordChar d) = true := g2
            rw [g2']
            simp
          have h3 : (k != some (runKind (c :: d :: ds))) = true := by
            rw [runKind]
            simpa [bne_iff_ne] using hkc
          have h4 : validRuns (some (runKind (c :: d :: ds))) rs = true := by
            rw [runKind, hcd]
            exact g4
          rw [h2, h3, h4]
          rfl
        · rw [if_neg hw]
          rw [validRuns]
          have h2 : homog (runKind [c]) [c] = true := by
            rw [homog, runKind, List.all_cons]
            simp
          have h3 : (k != some (runKind [c])) = true := by
            rw [runKind]
            simpa [bne_iff_ne] using hkc
          have h4 : validRuns (some (runKind [c])) ((d :: ds) :: rs) = true := by
            rw [validRuns]
            have h5 : (some (runKind [c]) != some (runKind (d :: ds))) = true := by
              rw [runKind, runKind]
              have hne : wordChar c ≠ wordChar d := by simpa using hw
              simpa [bne_iff_ne] using hne
            rw [g1, g2, h5, g4]
            rfl
          rw [h2, h3, h4]
          rfl

theorem pfx_append_self : ∀ S r : Str, pfx S (S ++ r) = true := by
  intro S
  induction S with
  | nil => intro r; rfl
  | cons a as ih => intro r; simp [pfx, ih r]

theorem homog_head {b : Bool} {c : Char} {cs : Str} (h : homog b (c :: cs) = true) :
    wordChar c = b := by
  rw [homog, List.all_eq_true] at h
  simpa using h c (List.mem_cons_self c cs)

theorem homog_tail {b : Bool} {c : Char} {cs : Str} (h : homog b (c :: cs) = true) :
    homog b cs = true := by
  rw [homog, List.all_eq_true] at h ⊢
  intro d hd
  exact h d (List.mem_cons_of_mem c hd)

theorem getLastD_word : ∀ S : Str, S ≠ [] → homog true S = true →
    wordChar (S.getLastD '_') = true := by
  intro S
  induction S with
  | nil => intro h; exact absurd rfl h
  | cons a as ih =>
    intro _ hw
    cases as with
    | nil => simpa using homog_head hw
    | cons b bs =>
      have := ih (by simp) (homog_tail hw)
      simpa [List.getLastD_cons] using this

/-- A substitution pass never enters a non-word run. -/
theorem subWW_sep (S T : Str) (hS : S ≠ []) (hSw : homog true S = true) :
    ∀ (sep : Str) (rest : Str) (lb : Bool), homog false sep = true →
      subWW S T lb (sep ++ rest) =
        sep ++ subWW S T (if sep.isEmpty then lb else true) rest := by
  intro sep
  induction sep with
  | nil => intro rest lb _; simp [List.isEmpty]
  | cons c cs ih =>
    intro rest lb hsep
    have hc : wordChar c = false := homog_head hsep
    have hpfx : pfx S (c :: (cs ++ rest)) = false := by
      obtain ⟨s0, S', rfl⟩ : ∃ s0 S', S = s0 :: S' := by
        cases S with
        | nil => exact absurd rfl hS
        | cons s0 S' => exact ⟨s0, S', rfl⟩
      have hs0 : wordChar s0 = true := homog_head hSw
      have : (s0 == c) = false := by
        by_cases h : s0 = c
        · subst h; rw [hs0] at hc; cases hc
        · simpa using h
      simp [pfx, this]
    have hno : ¬ (S ≠ [] ∧ lb = true ∧ pfx S (c :: (cs ++ rest)) = true ∧
        wordEnd (List.drop S.length (c :: (cs ++ rest))) = true) := by
      rintro ⟨-, -, hp, -⟩
      rw [hpfx] at hp
      cases hp
    rw [List.cons_append, subWW_cons, if_neg hno, hc]
    simp only [Bool.not_false]
    rw [ih rest true (homog_tail hsep)]
    simp [ite_self]

/-- Inside a word run (left boundary flag off) a substitution pass only copies. -/
theorem subWW_innerW (S T : Str) :
    ∀ (w : Str) (rest : Str), homog true w = true →
      subWW S T false (w ++ rest) = w ++ subWW S T false rest := by
  intro w
  induction w with
  | nil => intro rest _; rfl
  | cons c cs ih =>
    intro rest hw
    have hc : wordChar c = true := homog_head hw
    have hno : ¬ (S ≠ [] ∧ false = true ∧ pfx S (c :: (cs ++ rest)) = true ∧
        wordEnd (List.drop S.length (c :: (cs ++ rest))) = true) := by
      rintro ⟨-, hb, -⟩
      cases hb
    rw [List.cons_append, subWW_cons, if_neg hno, hc]
    simp only [Bool.not_true]
    rw [ih rest (homog_tail hw)]
    rfl

/-- A whole-word pattern that matches at the start of a word run must be the
entire run. -/
theorem pfx_word_eq :
    ∀ (S w rest : Str), homog true S = true → homog true w = true →
      wordEnd rest = true → pfx S (w ++ rest) = true →
      wordEnd (List.drop S.length (w ++ rest)) = true → S = w := by
  intro S
  induction S with
  | nil =>
    intro w rest _ hw hrest _ hend
    cases w with
    | nil => rfl
    | cons c cs =>
      simp only [List.length_nil, List.drop_zero] at hend
      rw [List.cons_append] at hend
      rw [wordEnd] at hend
      rw [homog_head hw] at hend
      cases hend
  | cons s S' ih =>
    intro w rest hS hw hrest hp hend
    cases w with
    | nil =>
      simp only [List.nil_append] at hp hend
      cases rest with
      | nil => simp [pfx] at hp
      | cons d ds =>
        rw [wordEnd] at hrest
        have hs : wordChar s = true := homog_head hS
        rw [pfx] at hp
        have : s = d := by
          by_cases h : s = d
          · exact h
          · simp [h] at hp
        subst this
        rw [hs] at hrest
        cases hrest
    | cons c cs =>
      rw [List.cons_append, pfx] at hp
      have hsc : s = c := by
        by_cases h : s = c
        · exact h
        · simp [h] at hp
      subst hsc
      have hp' : pfx S' (cs ++ rest) = true := by
        simpa using hp
      have hend' : wordEnd (List.drop S'.length (cs ++ rest)) = true := by
        simpa using hend
      rw [ih cs rest (homog_tail hS) (homog_tail hw) hrest hp' hend']

/-- Replace a run equal to the pattern, keep it otherwise. -/
def mapRun (S T : Str) (r : Str) : Str := if r == S then T else r

/-- Action of a substitution pass on a leading word run. -/
theorem subWW_wordRun (S T : Str) (hS : S ≠ []) (hSw : homog true S = true) :
    ∀ (w : Str) (rest : Str), w ≠ [] → homog true w = true → wordEnd rest = true →
      subWW S T true (w ++ rest) = mapRun S T w ++ subWW S T false rest := by
  intro w rest hw0 hww hrest
  by_cases hws : w = S
  · rw [hws]
    obtain ⟨s0, S', rfl⟩ : ∃ s0 S', S = s0 :: S' := by
      cases S with
      | nil => exact absurd rfl hS
      | cons s0 S' => exact ⟨s0, S', rfl⟩
    have hp : pfx (s0 :: S') (s0 :: (S' ++ rest)) = true := by
      rw [← List.cons_append]
      exact pfx_append_self _ _
    have hd : List.drop (s0 :: S').length (s0 :: (S' ++ rest)) = rest := by
      rw [← List.cons_append]
      exact List.drop_left _ _
    rw [List.cons_append, subWW_cons, if_pos ⟨hS, rfl, hp, (by rw [hd]; exact hrest)⟩]
    rw [mapRun, if_pos (by simp), hd]
    have hlast : wordChar ((s0 :: S').getLastD '_') = true := getLastD_word _ hS hSw
    rw [hlast]
    rfl
  · obtain ⟨c, cs, rfl⟩ : ∃ c cs, w = c :: cs := by
      cases w with
      | nil => exact absurd rfl hw0
      | cons c cs => exact ⟨c, cs, rfl⟩
    have hno : ¬ (S ≠ [] ∧ true = true ∧ pfx S (c :: (cs ++ rest)) = true ∧
        wordEnd (List.drop S.length (c :: (cs ++ rest))) = true) := by
      rintro ⟨-, -, hp, he⟩
      exact hws (pfx_word_eq S (c :: cs) rest hSw hww hrest hp he).symm
    rw [List.cons_append, subWW_cons, if_neg hno, homog_head hww]
    simp only [Bool.not_true]
    rw [subWW_innerW S T cs rest (homog_tail hww)]
    rw [mapRun, if_neg (by simpa using hws)]
    rfl

/-- The head of a valid run list following a word run starts with a non-word
character (or is empty): a right word boundary. -/
theorem wordEnd_flatten {rs : List Str} (h : validRuns (some true) rs = true) :
    wordEnd rs.flatten = true := by
  cases rs with
  | nil => rfl
  | cons r rs' =>
    rw [validRuns] at h
    simp only [Bool.and_eq_true] at h
    obtain ⟨⟨⟨h1, h2⟩, h3⟩, -⟩ := h
    cases r with
    | nil => simp [List.isEmpty] at h1
    | cons c cs =>
      have hk : runKind (c :: cs) = false := by
        cases h : runKind (c :: cs) with
        | false => rfl
        | true => rw [h] at h3; simp at h3
      rw [runKind] at hk
      rw [List.flatten_cons, List.cons_append, wordEnd, hk]
      rfl

/-- `subWW` acts on a valid run decomposition by mapping `mapRun` over it. -/
theorem subWW_flat (S T : Str) (hS : S ≠ []) (hSw : homog true S = true) :
    ∀ (rs : List Str) (k : Option Bool), validRuns k rs = true →
      subWW S T (k != some true) rs.flatten =
        (rs.map (mapRun S T)).flatten := by
  intro rs
  induction rs with
  | nil => intro k _; rfl
  | cons r rs' ih =>
    intro k hv
    rw [validRuns] at hv
    simp only [Bool.and_eq_true] at hv
    obtain ⟨⟨⟨h1, h2⟩, h3⟩, h4⟩ := hv
    obtain ⟨c, cs, rfl⟩ : ∃ c cs, r = c :: cs := by
      cases r with
      | nil => simp [List.isEmpty] at h1
      | cons c cs => exact ⟨c, cs, rfl⟩
    rw [List.flatten_cons, List.map_cons, List.flatten_cons]
    cases hk : runKind (c :: cs) with
    | false => -- separator run
      have hsep : homog false (c :: cs) = true := hk ▸ h2
      have hrS : ((c :: cs) == S) = false := by
        obtain ⟨s0, S', hS'⟩ : ∃ s0 S', S = s0 :: S' := by
          cases S with
          | nil => exact absurd rfl hS
          | cons s0 S' => exact ⟨s0, S', rfl⟩
        subst hS'
        have hx : wordChar c = false := homog_head hsep
        have hy : wordChar s0 = true := homog_head hSw
        by_cases h : (c :: cs) = (s0 :: S')
        · injection h with h5 h6
          rw [h5] at hx
          rw [hx] at hy
          cases hy
        · simpa using h
      have hmr : mapRun S T (c :: cs) = c :: cs := by
        have hnot : ¬ (((c :: cs) == S) = true) := by simp [hrS]
        rw [mapRun, if_neg hnot]
      have hih := ih (some (runKind (c :: cs))) h4
      rw [hk] at hih
      have hb : (some false != some true) = true := rfl
      rw [hb] at hih
      rw [subWW_sep S T hS hSw (c :: cs) rs'.flatten (k != some true) hsep]
      have hif : (if (c :: cs).isEmpty = true then (k != some true) else true) = true := by
        simp
      rw [hif, hmr, hih]
    | true => -- word run
      have hword : homog true (c :: cs) = true := hk ▸ h2
      have hlb : (k != some true) = true := by rw [hk] at h3; exact h3
      rw [hk] at h4
      have hih := ih (some true) h4
      have hb : (some true != some true) = false := rfl
      rw [hb] at hih
      rw [hlb]
      rw [subWW_wordRun S T hS hSw (c :: cs) rs'.flatten (by simp) hword
        (wordEnd_flatten h4)]
      rw [hih]

/-- `mapRun` preserves validity of a run decomposition, provided pattern and
replacement are both nonempty identifiers. -/
theorem valid_mapRun (S T : Str) (hSw : homog true S = true)
    (hT : T ≠ []) (hTw : homog true T = true) :
    ∀ (rs : List Str) (k : Option Bool), validRuns k rs = true →
      validRuns k (rs.map (mapRun S T)) = true := by
  intro rs
  induction rs with
  | nil => intro k _; rfl
  | cons r rs' ih =>
    intro k hv
    rw [validRuns] at hv
    simp only [Bool.and_eq_true] at hv
    obtain ⟨⟨⟨h1, h2⟩, h3⟩, h4⟩ := hv
    rw [List.map_cons, validRuns]
    by_cases hr : r = S
    · subst hr
      have hmr : mapRun r T r = T := by rw [mapRun, if_pos (by simp)]
      have hkr : runKind r = true := by
        obtain ⟨c, cs, hr'⟩ : ∃ c cs, r = c :: cs := by
          cases r with
          | nil => simp [List.isEmpty] at h1
          | cons c cs => exact ⟨c, cs, rfl⟩
        rw [hr', runKind]
        exact homog_head (hr' ▸ hSw)
      have hkT : runKind T = true := by
        obtain ⟨d, ds, hT'⟩ : ∃ d ds, T = d :: ds := by
          cases T with
          | nil => exact absurd rfl hT
          | cons d ds => exact ⟨d, ds, rfl⟩
        rw [hT', runKind]
        exact homog_head (hT' ▸ hTw)
      have hTne : T.isEmpty = false := by
        cases T with
        | nil => exact absurd rfl hT
        | cons d ds => rfl
      have h3' : (k != some true) = true := by rw [hkr] at h3; exact h3
      have h4' : validRuns (some true) rs' = true := by rw [hkr] at h4; exact h4
      rw [hmr, hkT]
      simp [hTne, hTw, h3', ih (some true) h4']
    · have hmr : mapRun S T r = r := by
        rw [mapRun, if_neg (by simpa using hr)]
      rw [hmr]
      simp [h1, h2, h3, ih (some (runKind r)) h4]

theorem ne_nil_of_isEmpty {r : Str} (h : (!r.isEmpty) = true) : r ≠ [] := by
  cases r with
  | nil => simp [List.isEmpty] at h
  | cons c cs => simp

/-- Decomposition of a homogeneous run followed by text of the opposite
kind. -/
theorem decompose_run_append (b : Bool) :
    ∀ (r X : Str), r ≠ [] → homog b r = true →
      (X = [] ∨ ∃ d ds, X = d :: ds ∧ wordChar d ≠ b) →
      decompose (r ++ X) = r :: decompose X := by
  intro r
  induction r with
  | nil => intro X h; exact absurd rfl h
  | cons c cs ih =>
    intro X _ hh hX
    cases cs with
    | nil =>
      rw [List.cons_append, List.nil_append, decompose]
      rcases hX with rfl | ⟨d, ds, rfl, hd⟩
      · rfl
      · obtain ⟨rr, rrs, hdd⟩ := decompose_head d ds
        rw [hdd, consRun]
        have hbc : (wordChar c == wordChar d) = false := by
          have hc : wordChar c = b := homog_head hh
          rw [hc]
          by_cases hy : b = wordChar d
          · exact absurd hy.symm hd
          · simpa using hy
        rw [if_neg (by simp [hbc]), ← hdd]
    | cons c2 cs2 =>
      have ih' := ih X (by simp) (homog_tail hh) hX
      rw [List.cons_append, decompose, ih', consRun]
      have hcc : (wordChar c == wordChar c2) = true := by
        rw [homog_head hh, homog_head (homog_tail hh)]
        simp
      rw [if_pos hcc]

/-- A valid run list is recovered by decomposing its flattening. -/
theorem decompose_flat : ∀ (rs : List Str) (k : Option Bool),
    validRuns k rs = true → decompose rs.flatten = rs := by
  intro rs
  induction rs with
  | nil => intro k _; rfl
  | cons r rs' ih =>
    intro k hv
    rw [validRuns] at hv
    simp only [Bool.and_eq_true] at hv
    obtain ⟨⟨⟨h1, h2⟩, h3⟩, h4⟩ := hv
    obtain ⟨c, cs, rfl⟩ : ∃ c cs, r = c :: cs := by
      cases r with
      | nil => simp [List.isEmpty] at h1
      | cons c cs => exact ⟨c, cs, rfl⟩
    have hX : rs'.flatten = [] ∨
        ∃ d ds, rs'.flatten = d :: ds ∧ wordChar d ≠ runKind (c :: cs) := by
      cases rs' with
      | nil => left; rfl
      | cons r' rs'' =>
        rw [validRuns] at h4
        simp only [Bool.and_eq_true] at h4
        obtain ⟨⟨⟨g1, g2⟩, g3⟩, -⟩ := h4
        obtain ⟨d, ds', rfl⟩ : ∃ d ds', r' = d :: ds' := by
          cases r' with
          | nil => simp [List.isEmpty] at g1
          | cons d ds' => exact ⟨d, ds', rfl⟩
        right
        refine ⟨d, ds' ++ rs''.flatten, by rw [List.flatten_cons, List.cons_append], ?_⟩
        intro he
        have g3' : (some (runKind (c :: cs)) != some (wordChar d)) = true := g3
        rw [he] at g3'
        simp at g3'
    rw [List.flatten_cons]
    rw [decompose_run_append (runKind (c :: cs)) (c :: cs) rs'.flatten (by simp) h2 hX]
    rw [ih (some (runKind (c :: cs))) h4]

/-- Fold of `mapRun` over a whole table. -/
def mapTab (tab : List (Str × Str)) (r : Str) : Str :=
  tab.foldl (fun r p => mapRun p.1 p.2 r) r

/-- Wellformedness of a mapping table: old and new names are nonempty
identifiers (runs of word characters). -/
def tabOK (tab : List (Str × Str)) : Bool :=
  tab.all (fun p => !p.1.isEmpty && homog true p.1 && !p.2.isEmpty && homog true p.2)

theorem tabOK_cons {p : Str × Str} {tab : List (Str × Str)}
    (h : tabOK (p :: tab) = true) :
    p.1 ≠ [] ∧ homog true p.1 = true ∧ p.2 ≠ [] ∧ homog true p.2 = true ∧
      tabOK tab = true := by
  rw [tabOK, List.all_cons] at h
  simp only [Bool.and_eq_true] at h
  obtain ⟨⟨⟨⟨a, b⟩, c⟩, d⟩, e⟩ := h
  exact ⟨ne_nil_of_isEmpty a, b, ne_nil_of_isEmpty c, d, e⟩

/-- Applying a whole mapping table acts on the run decomposition by folding
`mapRun` over each run. -/
theorem applyTab_decompose (tab : List (Str × Str)) (hok : tabOK tab = true) :
    ∀ t : Str, decompose (applyTab tab t) = (decompose t).map (mapTab tab) := by
  induction tab with
  | nil =>
    intro t
    have : (decompose t).map (mapTab []) = (decompose t).map id :=
      List.map_congr_left (fun a _ => rfl)
    rw [this, List.map_id]
    rfl
  | cons p tab' ih =>
    intro t
    obtain ⟨hp1, hp2, hp3, hp4, hok'⟩ := tabOK_cons hok
    have hstep : subWW p.1 p.2 true t = ((decompose t).map (mapRun p.1 p.2)).flatten := by
      have hv := decompose_valid t none (kindOK_none t)
      have := subWW_flat p.1 p.2 hp1 hp2 (decompose t) none hv
      rw [flatten_decompose] at this
      have hb : ((none : Option Bool) != some true) = true := rfl
      rw [hb] at this
      exact this
    have hvmap : validRuns none ((decompose t).map (mapRun p.1 p.2)) = true :=
      valid_mapRun p.1 p.2 hp2 hp3 hp4 (decompose t) none
        (decompose_valid t none (kindOK_none t))
    have hstep2 : decompose (subWW p.1 p.2 true t) = (decompose t).map (mapRun p.1 p.2) := by
      rw [hstep]
      exact decompose_flat _ none hvmap
    have happ : applyTab (p :: tab') t = applyTab tab' (subWW p.1 p.2 true t) := rfl
    rw [happ, ih hok', hstep2, List.map_map]
    exact List.map_congr_left (fun a _ => rfl)

/-- Text-level version of `applyTab_decompose`. -/
theorem applyTab_eq_flat (tab : List (Str × Str)) (hok : tabOK tab = true) (t : Str) :
    applyTab tab t = ((decompose t).map (mapTab tab)).flatten := by
  rw [← applyTab_decompose tab hok t, flatten_decompose]

/-! ## Absence of whole-word occurrences, run-wise -/

theorem hasWW_sep (S : Str) (hS : S ≠ []) (hSw : homog true S = true) :
    ∀ (sep rest : Str) (lb : Bool), homog false sep = true →
      hasWW S lb (sep ++ rest) =
        hasWW S (if sep.isEmpty then lb else true) rest := by
  intro sep
  induction sep with
  | nil => intro rest lb _; simp [List.isEmpty]
  | cons c cs ih =>
    intro rest lb hsep
    have hc : wordChar c = false := homog_head hsep
    have hpfx : pfx S (c :: (cs ++ rest)) = false := by
      obtain ⟨s0, S', rfl⟩ : ∃ s0 S', S = s0 :: S' := by
        cases S with
        | nil => exact absurd rfl hS
        | cons s0 S' => exact ⟨s0, S', rfl⟩
      have hs0 : wordChar s0 = true := homog_head hSw
      have : (s0 == c) = false := by
        by_cases h : s0 = c
        · subst h; rw [hs0] at hc; cases hc
        · simpa using h
      simp [pfx, this]
    rw [List.cons_append, hasWW, hpfx, hc]
    simp only [Bool.and_false, Bool.false_and, Bool.false_or, Bool.not_false]
    rw [ih rest true (homog_tail hsep)]
    simp [ite_self]

theorem hasWW_innerW (S : Str) :
    ∀ (w rest : Str), homog true w = true →
      hasWW S false (w ++ rest) = hasWW S false rest := by
  intro w
  induction w with
  | nil => intro rest _; rfl
  | cons c cs ih =>
    intro rest hw
    have hc : wordChar c = true := homog_head hw
    rw [List.cons_append, hasWW, hc]
    simp only [Bool.false_and, Bool.false_or, Bool.not_true]
    exact ih rest (homog_tail hw)

theorem hasWW_wordRun_ne (S : Str) (hS : S ≠ []) (hSw : homog true S = true) :
    ∀ (w rest : Str), w ≠ [] → w ≠ S → homog true w = true → wordEnd rest = true →
      hasWW S true (w ++ rest) = hasWW S false rest := by
  intro w rest hw0 hws hww hrest
  obtain ⟨c, cs, rfl⟩ : ∃ c cs, w = c :: cs := by
    cases w with
    | nil => exact absurd rfl hw0
    | cons c cs => exact ⟨c, cs, rfl⟩
  have hhead : (true && pfx S (c :: (cs ++ rest)) &&
      wordEnd (List.drop S.length (c :: (cs ++ rest)))) = false := by
    by_cases hp : pfx S (c :: (cs ++ rest)) = true
    · by_cases he : wordEnd (List.drop S.length (c :: (cs ++ rest))) = true
      · exact absurd (pfx_word_eq S (c :: cs) rest hSw hww hrest hp he).symm hws
      · simp only [Bool.not_eq_true] at he
        rw [he, Bool.and_false]
    · simp only [Bool.not_eq_true] at hp
      rw [hp]
      simp
  rw [List.cons_append, hasWW, hhead, homog_head hww]
  simp only [Bool.false_or, Bool.not_true]
  exact hasWW_innerW S cs rest (homog_tail hww)

/-- If no run of a valid decomposition equals `S`, the flattening has no
whole-word occurrence of `S`. -/
theorem hasWW_flat_ne (S : Str) (hS : S ≠ []) (hSw : homog true S = true) :
    ∀ (rs : List Str) (k : Option Bool), validRuns k rs = true →
      (∀ r ∈ rs, r ≠ S) →
      hasWW S (k != some true) rs.flatten = false := by
  intro rs
  induction rs with
  | nil => intro k _ _; rfl
  | cons r rs' ih =>
    intro k hv hne
    rw [validRuns] at hv
    simp only [Bool.and_eq_true] at hv
    obtain ⟨⟨⟨h1, h2⟩, h3⟩, h4⟩ := hv
    obtain ⟨c, cs, rfl⟩ : ∃ c cs, r = c :: cs := by
      cases r with
      | nil => simp [List.isEmpty] at h1
      | cons c cs => exact ⟨c, cs, rfl⟩
    rw [List.flatten_cons]
    cases hk : runKind (c :: cs) with
    | false =>
      have hsep : homog false (c :: cs) = true := hk ▸ h2
      rw [hasWW_sep S hS hSw (c :: cs) rs'.flatten (k != some true) hsep]
      have hif : (if (c :: cs).isEmpty = true then (k != some true) else true) = true := by
        simp
      rw [hif]
      have hih := ih (some (runKind (c :: cs))) h4
        (fun r hr => hne r (List.mem_cons_of_mem _ hr))
      rw [hk] at hih
      exact hih
    | true =>
      have hword : homog true (c :: cs) = true := hk ▸ h2
      have hlb : (k != some true) = true := by rw [hk] at h3; exact h3
      rw [hk] at h4
      rw [hlb]
      rw [hasWW_wordRun_ne S hS hSw (c :: cs) rs'.flatten (by simp)
        (hne _ (List.mem_cons_self _ _)) hword (wordEnd_flatten h4)]
      have hih := ih (some true) h4
        (fun r hr => hne r (List.mem_cons_of_mem _ hr))
      have hb : (some true != some true) = false := rfl
      rw [hb] at hih
      exact hih

/-- Once a run differs from `S`, folding a table whose values are never equal
to `S` keeps it different from `S`. -/
theorem mapTab_stable (S : Str) :
    ∀ (tab : List (Str × Str)), (∀ p ∈ tab, p.2 ≠ S) →
      ∀ r, r ≠ S → mapTab tab r ≠ S := by
  intro tab
  induction tab with
  | nil => intro _ r hr; exact hr
  | cons p tab' ih =>
    intro hval r hr
    have hstep : mapTab (p :: tab') r = mapTab tab' (mapRun p.1 p.2 r) := rfl
    rw [hstep]
    apply ih (fun q hq => hval q (List.mem_cons_of_mem p hq))
    rw [mapRun]
    split
    · exact hval p (List.mem_cons_self p tab')
    · exact hr

/-- After folding a table over a run, the result never equals a key of the
table, provided no value of the table is also a key. -/
theorem mapTab_ne_key (S T : Str) :
    ∀ (tab : List (Str × Str)), (S, T) ∈ tab →
      (∀ p ∈ tab, ∀ q ∈ tab, p.2 ≠ q.1) →
      ∀ r, mapTab tab r ≠ S := by
  intro tab
  induction tab with
  | nil => intro hmem; cases hmem
  | cons p tab' ih =>
    intro hmem hcross r
    have hstep : mapTab (p :: tab') r = mapTab tab' (mapRun p.1 p.2 r) := rfl
    rw [hstep]
    rcases List.mem_cons.mp hmem with heq | hmem'
    · -- the (S, T) entry is the head: after it, the run differs from S forever
      have hpS : p.1 = S := by rw [← heq]
      have hne : mapRun p.1 p.2 r ≠ S := by
        rw [mapRun]
        split
        · rw [← hpS]
          exact hcross p (List.mem_cons_self p tab') p (List.mem_cons_self p tab')
        · rename_i hcond
          intro hrS
          apply hcond
          rw [hrS, hpS]
          simp
      have hval : ∀ q ∈ tab', q.2 ≠ S := by
        intro q hq
        have hx := hcross q (List.mem_cons_of_mem p hq) p (List.mem_cons_self p tab')
        rw [hpS] at hx
        exact hx
      exact mapTab_stable S tab' hval _ hne
    · exact ih hmem'
        (fun a ha b hb =>
          hcross a (List.mem_cons_of_mem p ha) b (List.mem_cons_of_mem p hb))
        (mapRun p.1 p.2 r)

/-! ## Table-fold facts -/

theorem tab_mem_props {tab : List (Str × Str)} {S T : Str}
    (hok : tabOK tab = true) (hmem : (S, T) ∈ tab) :
    S ≠ [] ∧ homog true S = true ∧ T ≠ [] ∧ homog true T = true := by
  rw [tabOK, List.all_eq_true] at hok
  have h := hok (S, T) hmem
  simp only [Bool.and_eq_true] at h
  obtain ⟨⟨⟨a, b⟩, c⟩, d⟩ := h
  exact ⟨ne_nil_of_isEmpty a, b, ne_nil_of_isEmpty c, d⟩

/-- A run that matches no key of the table is untouched by the fold. -/
theorem mapTab_keep (r : Str) :
    ∀ tab : List (Str × Str), (∀ q ∈ tab, r ≠ q.1) → mapTab tab r = r := by
  intro tab
  induction tab with
  | nil => intro _; rfl
  | cons p tab' ih =>
    intro h
    have hstep : mapTab (p :: tab') r = mapTab tab' (mapRun p.1 p.2 r) := rfl
    rw [hstep, mapRun, if_neg]
    · exact ih (fun q hq => h q (List.mem_cons_of_mem p hq))
    · simpa using h p (List.mem_cons_self p tab')

/-- A run equal to a key of the table is rewritten to the key's value,
provided keys are distinct and no value of the table is also a key. -/
theorem mapTab_eq_of_mem (S T : Str) :
    ∀ tab : List (Str × Str), (S, T) ∈ tab →
      (tab.map Prod.fst).Nodup →
      (∀ p ∈ tab, ∀ q ∈ tab, p.2 ≠ q.1) →
      mapTab tab S = T := by
  intro tab
  induction tab with
  | nil => intro h; cases h
  | cons p tab' ih =>
    intro hmem hnd hcross
    have hstep : mapTab (p :: tab') S = mapTab tab' (mapRun p.1 p.2 S) := rfl
    rcases List.mem_cons.mp hmem with heq | hmem'
    · have h1 : p.1 = S := by rw [← heq]
      have h2 : p.2 = T := by rw [← heq]
      rw [hstep, mapRun, if_pos (by simp [h1]), h2]
      apply mapTab_keep
      intro q hq
      have hx := hcross p (List.mem_cons_self p tab') q (List.mem_cons_of_mem p hq)
      rw [h2] at hx
      exact hx
    · have hne : p.1 ≠ S := by
        rw [List.map_cons, List.nodup_cons] at hnd
        intro he
        apply hnd.1
        rw [he]
        exact List.mem_map.mpr ⟨(S, T), hmem', rfl⟩
      rw [hstep, mapRun, if_neg (by simpa using Ne.symm hne)]
      exact ih hmem'
        (by rw [List.map_cons, List.nodup_cons] at hnd; exact hnd.2)
        (fun a ha b hb =>
          hcross a (List.mem_cons_of_mem p ha) b (List.mem_cons_of_mem p hb))

/-! ## Claim C1 -/

/-- C1 (amended): the whole-word usage rewriter of `replace-lucide-icons.py`
(the per-part body pass `applyTab tableB` of `replace_icon_names_in_code`)
replaces every whole-identifier occurrence of a mapped old name `S` by its
target `T` — run-wise, every maximal identifier run equal to `S` becomes `T`
at its position — and no whole-identifier occurrence of `S` remains anywhere in
the rewritten text.  The claim as stated over all three scripts is refuted by
`C1_counterexample`: `replace-icons.py` rewrites only JSX tag occurrences, so
plain identifier occurrences of `S` survive there. -/
theorem C1_theorem (S T : Str) (hmem : (S, T) ∈ tableB) (t : Str) (i : Nat) :
    ((decompose t)[i]? = some S →
      (decompose (applyTab tableB t))[i]? = some T) ∧
    hasWW S true (applyTab tableB t) = false := by
  have hok : tabOK tableB = true := by decide
  have hcross : ∀ p ∈ tableB, ∀ q ∈ tableB, p.2 ≠ q.1 := by decide
  have hnd : (tableB.map Prod.fst).Nodup := by decide
  obtain ⟨hS, hSw, hT, hTw⟩ := tab_mem_props hok hmem
  constructor
  · intro hi
    rw [applyTab_decompose tableB hok t, List.getElem?_map, hi]
    rw [Option.map_some']
    rw [mapTab_eq_of_mem S T tableB hmem hnd hcross]
  · have hu := decompose_valid (applyTab tableB t) none (kindOK_none _)
    have hne : ∀ r ∈ decompose (applyTab tableB t), r ≠ S := by
      rw [applyTab_decompose tableB hok t]
      intro r hr
      obtain ⟨r0, hr0, rfl⟩ := List.mem_map.mp hr
      exact mapTab_ne_key S T tableB hmem hcross r0
    have hres := hasWW_flat_ne S hS hSw (decompose (applyTab tableB t)) none hu hne
    rw [flatten_decompose] at hres
    have hb : ((none : Option Bool) != some true) = true := rfl
    rw [hb] at hres
    exact hres

/-- Witness for `C1_theorem`: the mapping `Edit → Pencil` applied to the file
text `"x = Edit;"` rewrites the identifier run and leaves no residual `Edit`. -/
theorem C1_witness :
    (str "Edit", str "Pencil") ∈ tableB ∧
    (decompose (applyTab tableB (str "x = Edit;")))[2]? = some (str "Pencil") ∧
    hasWW (str "Edit") true (applyTab tableB (str "x = Edit;")) = false :=
  ⟨by decide,
    (C1_theorem (str "Edit") (str "Pencil") (by decide) (str "x = Edit;") 2).1 (by decide),
    (C1_theorem (str "Edit") (str "Pencil") (by decide) (str "x = Edit;") 2).2⟩

/-- C1 counterexample: `replace-icons.py` on a file importing `AlertCircle`
with a plain (non-JSX) usage `const I = AlertCircle` rewrites the import but
leaves the whole-identifier occurrence of `AlertCircle` in the body, so "no
occurrence of S remains" fails for the program as a whole. -/
theorem C1_counterexample :
    processTextA
        (str "import \x7b AlertCircle \x7d from \"lucide-react\"\nconst I = AlertCircle\n") =
      some (str "import \x7b CircleAlert \x7d from \"@aliimam/icons\"" ++
        str "\nconst I = AlertCircle\n") ∧
    hasWW (str "AlertCircle") true (str "\nconst I = AlertCircle\n") = true := by
  constructor
  · decide
  · decide

/-- A single whole-word substitution pass acts run-wise on the decomposition. -/
theorem subWW_decompose (S T : Str) (hS : S ≠ []) (hSw : homog true S = true)
    (hT : T ≠ []) (hTw : homog true T = true) (t : Str) :
    decompose (subWW S T true t) = (decompose t).map (mapRun S T) := by
  have hv := decompose_valid t none (kindOK_none t)
  have hstep := subWW_flat S T hS hSw (decompose t) none hv
  rw [flatten_decompose] at hstep
  have hb : ((none : Option Bool) != some true) = true := rfl
  rw [hb] at hstep
  rw [hstep]
  exact decompose_flat _ none (valid_mapRun S T hSw hT hTw (decompose t) none hv)

/-! ## Claim C3 -/

/-- C3 (amended): an identifier that contains a mapped old name `S` only as a
strict substring — and is not itself a key of the mapping table — is never
altered by script B's usage rewriter: its run in the decomposition is
unchanged in place.  The claim as stated is refuted by `C3_counterexample`:
the identifier `CheckCircle2` contains the mapped name `CheckCircle` strictly
and is nevertheless rewritten, because it is itself a mapping key. -/
theorem C3_theorem (S T I : Str) (hmem : (S, T) ∈ tableB)
    (hsub : hasSub S I = true) (hne : I ≠ S)
    (hkey : ∀ p ∈ tableB, I ≠ p.1)
    (t : Str) (i : Nat) (hi : (decompose t)[i]? = some I) :
    (decompose (applyTab tableB t))[i]? = some I := by
  have hok : tabOK tableB = true := by decide
  rw [applyTab_decompose tableB hok t, List.getElem?_map, hi, Option.map_some']
  rw [mapTab_keep I tableB hkey]

/-- Witness for `C3_theorem`: `EditableField` strictly contains the mapped name
`Edit` and survives the rewrite of the file `"<EditableField />"` unchanged. -/
theorem C3_witness :
    (str "Edit", str "Pencil") ∈ tableB ∧
    (decompose (applyTab tableB (str "<EditableField />")))[1]? =
      some (str "EditableField") :=
  ⟨by decide,
    C3_theorem (str "Edit") (str "Pencil") (str "EditableField") (by decide)
      (by decide) (by decide) (by decide) (str "<EditableField />") 1 (by decide)⟩

/-- C3 counterexample: the identifier `CheckCircle2` contains the mapped name
`CheckCircle` only as a strict substring, yet script B's usage rewriter alters
it (to `CircleCheck`, via its own table entry), refuting "is never altered". -/
theorem C3_counterexample :
    hasSub (str "CheckCircle") (str "CheckCircle2") = true ∧
    str "CheckCircle2" ≠ str "CheckCircle" ∧
    applyTab tableB (str "<CheckCircle2 />") = str "<CircleCheck />" := by
  refine ⟨by decide, by decide, by decide⟩

/-! ## Claim C7 -/

/-- C7 (amended): the engine performs no name-conflict detection.  When a
mapped name's target (`Edit → Pencil`) equals a distinct symbol already present
in the file, script B's usage rewriter silently merges the two: after the
rewrite both the former `Edit` run and the pre-existing `Pencil` run read
`Pencil`.  Nothing is skipped or reported (refuting the claimed NameConflict
handling, see `C7_counterexample`). -/
theorem C7_theorem (t : Str) (i j : Nat)
    (hi : (decompose t)[i]? = some (str "Edit"))
    (hj : (decompose t)[j]? = some (str "Pencil")) :
    (decompose (applyTab tableB t))[i]? = some (str "Pencil") ∧
    (decompose (applyTab tableB t))[j]? = some (str "Pencil") := by
  have hok : tabOK tableB = true := by decide
  constructor
  · rw [applyTab_decompose tableB hok t, List.getElem?_map, hi, Option.map_some']
    have he : mapTab tableB (str "Edit") = str "Pencil" := by decide
    rw [he]
  · rw [applyTab_decompose tableB hok t, List.getElem?_map, hj, Option.map_some']
    have hp : mapTab tableB (str "Pencil") = str "Pencil" := by decide
    rw [hp]

/-- Witness for `C7_theorem` on the file text `"Edit Pencil"`. -/
theorem C7_witness :
    (decompose (applyTab tableB (str "Edit Pencil")))[0]? = some (str "Pencil") ∧
    (decompose (applyTab tableB (str "Edit Pencil")))[2]? = some (str "Pencil") :=
  ⟨(C7_theorem (str "Edit Pencil") 0 2 (by decide) (by decide)).1,
    (C7_theorem (str "Edit Pencil") 0 2 (by decide) (by decide)).2⟩

/-- C7 counterexample: on a file importing `Edit` whose body already declares a
distinct `Pencil`, script B's `process_file` rewrites the usages anyway and
silently merges the two names, rather than detecting a conflict, skipping the
file's usages and reporting. -/
theorem C7_counterexample :
    processTextB
        (str "import \x7b Edit \x7d from \"lucide-react\";const Pencil = 1;Edit;") =
      str "import \x7b Pencil \x7d from \"@aliimam/icons\";const Pencil = 1;Pencil;" ∧
    str "import \x7b Pencil \x7d from \"@aliimam/icons\";const Pencil = 1;Pencil;" ≠
      str "import \x7b Pencil \x7d from \"@aliimam/icons\";const Pencil = 1;Edit;" := by
  refine ⟨by decide, by decide⟩

/-! ## Claim C4 -/

theorem wordChar_not_ws {c : Char} (h : wordChar c = true) : wsChar c = false := by
  by_cases he : wsChar c = true
  · rw [wsChar] at he
    simp only [Bool.or_eq_true, beq_iff_eq] at he
    rcases he with ((((rfl | rfl) | rfl) | rfl) | rfl) | rfl <;>
      exact absurd h (by decide)
  · simpa using he

theorem wordChar_no_space {c : Char} (h : wordChar c = true) : c ≠ ' ' := by
  intro he
  subst he
  exact absurd h (by decide)

theorem dropWhile_head_false (p : Char → Bool) :
    ∀ l : Str, (∀ c ∈ l, p c = false) → l.dropWhile p = l := by
  intro l h
  cases l with
  | nil => rfl
  | cons c cs =>
    rw [List.dropWhile_cons, h c (List.mem_cons_self c cs)]
    rfl

/-- `str.strip()` leaves a pure identifier unchanged. -/
theorem pyStrip_word {n : Str} (hw : homog true n = true) : pyStrip n = n := by
  have hall : ∀ c ∈ n, wsChar c = false := by
    intro c hc
    rw [homog, List.all_eq_true] at hw
    exact wordChar_not_ws (by simpa using hw c hc)
  have h1 : stripL n = n := dropWhile_head_false wsChar n hall
  have h2 : stripR n = n := by
    rw [stripR, dropWhile_head_false wsChar n.reverse
      (fun c hc => hall c (List.mem_reverse.mp hc))]
    exact List.reverse_reverse n
  rw [pyStrip, h1, h2]

theorem hasSub_mid : ∀ (a p b : Str), p ≠ [] → hasSub p (a ++ p ++ b) = true := by
  intro a
  induction a with
  | nil =>
    intro p b hp
    obtain ⟨c, cs, rfl⟩ : ∃ c cs, p = c :: cs := by
      cases p with
      | nil => exact absurd rfl hp
      | cons c cs => exact ⟨c, cs, rfl⟩
    rw [List.nil_append, List.cons_append, hasSub]
    have hpp : pfx (c :: cs) (c :: (cs ++ b)) = true := by
      rw [← List.cons_append]
      exact pfx_append_self _ _
    rw [hpp]
    rfl
  | cons x a' ih =>
    intro p b hp
    have he : (x :: a') ++ p ++ b = x :: (a' ++ p ++ b) := by
      simp [List.cons_append, List.append_assoc]
    rw [he, hasSub, ih p b hp]
    simp

/-- Splitting a pure identifier on `" as "` yields it back whole. -/
theorem splitSeq_as_word : ∀ Y : Str, homog true Y = true →
    splitSeq (str " as ") Y = [Y] := by
  intro Y
  induction Y with
  | nil => intro _; rfl
  | cons c cs ih =>
    intro h
    rw [splitSeq_cons]
    have hcc : c ≠ ' ' := wordChar_no_space (homog_head h)
    have hp : pfx (str " as ") (c :: cs) = false := by
      have hsep : str " as " = ' ' :: str "as " := rfl
      rw [hsep, pfx]
      simp [Ne.symm hcc]
    rw [if_neg (by rintro ⟨-, hp'⟩; rw [hp] at hp'; cases hp')]
    rw [ih (homog_tail h)]

/-- Splitting an aliased specifier `X as Y` on `" as "` yields the two names. -/
theorem splitSeq_alias : ∀ (X Y : Str), homog true X = true → homog true Y = true →
    splitSeq (str " as ") (X ++ str " as " ++ Y) = [X, Y] := by
  intro X
  induction X with
  | nil =>
    intro Y _ hY
    have he : ([] : Str) ++ str " as " ++ Y = ' ' :: (str "as " ++ Y) := rfl
    rw [he, splitSeq_cons]
    have hp : pfx (str " as ") (' ' :: (str "as " ++ Y)) = true := by
      have h2 : ' ' :: (str "as " ++ Y) = str " as " ++ Y := rfl
      rw [h2]
      exact pfx_append_self _ _
    rw [if_pos ⟨by simp [str], hp⟩]
    have hd : List.drop (str " as ").length (' ' :: (str "as " ++ Y)) = Y := by
      have h2 : ' ' :: (str "as " ++ Y) = str " as " ++ Y := rfl
      rw [h2]
      exact List.drop_left _ _
    rw [hd, splitSeq_as_word Y hY]
  | cons c cs ih =>
    intro Y hX hY
    have he : (c :: cs) ++ str " as " ++ Y = c :: (cs ++ str " as " ++ Y) := by
      simp [List.cons_append, List.append_assoc]
    rw [he, splitSeq_cons]
    have hcc : c ≠ ' ' := wordChar_no_space (homog_head hX)
    have hp : pfx (str " as ") (c :: (cs ++ str " as " ++ Y)) = false := by
      have hsep : str " as " = ' ' :: str "as " := rfl
      rw [hsep, pfx]
      simp [Ne.symm hcc]
    rw [if_neg (by rintro ⟨-, hp'⟩; rw [hp] at hp'; cases hp')]
    rw [ih Y (homog_tail hX) hY]

/-- `dict.get` on a table with distinct keys returns the member's value. -/
theorem lookupTab_eq (X X' : Str) :
    ∀ tab : List (Str × Str), (X, X') ∈ tab → (tab.map Prod.fst).Nodup →
      lookupTab tab X = X' := by
  intro tab
  induction tab with
  | nil => intro h; cases h
  | cons p tab' ih =>
    intro hmem hnd
    rcases List.mem_cons.mp hmem with heq | hmem'
    · have h1 : p.1 = X := by rw [← heq]
      have h2 : p.2 = X' := by rw [← heq]
      rw [lookupTab, List.find?_cons_of_pos _ (by simp [h1])]
      exact h2
    · have hne : p.1 ≠ X := by
        rw [List.map_cons, List.nodup_cons] at hnd
        intro hcon
        apply hnd.1
        rw [hcon]
        exact List.mem_map.mpr ⟨(X, X'), hmem', rfl⟩
      rw [lookupTab, List.find?_cons_of_neg _ (by simpa using hne)]
      rw [← lookupTab]
      exact ih hmem'
        (by rw [List.map_cons, List.nodup_cons] at hnd; exact hnd.2)

/-- `map_icon_names` on an aliased specifier: alias preserved, name mapped. -/
theorem mapOneB_alias (X X' Y : Str) (hmem : (X, X') ∈ tableB)
    (hX : homog true X = true) (hY : homog true Y = true) :
    mapOneB (X ++ str " as " ++ Y) = some (X' ++ str " as " ++ Y) := by
  rw [mapOneB, if_pos (hasSub_mid X (str " as ") Y (by simp [str]))]
  rw [splitSeq_alias X Y hX hY]
  show some (lookupTab tableB (pyStrip X) ++ str " as " ++ pyStrip Y) = _
  rw [pyStrip_word hX, pyStrip_word hY, lookupTab_eq X X' tableB hmem (by decide)]

/-- C4 (amended): script B's `map_icon_names` turns the aliased specifier
`X as Y` with mapping `X → X'` into `X' as Y` (alias preserved), and the
rename pass `subWW X X'` of the body leaves every identifier run equal to the
alias `Y` unchanged in place.  Script A, however, looks the whole specifier
string up in its mapping table, so an aliased specifier is never renamed
there (`C4_counterexample`). -/
theorem C4_theorem (X X' Y : Str) (hmem : (X, X') ∈ tableB)
    (hXw : homog true X = true) (hYw : homog true Y = true) (hne : Y ≠ X)
    (t : Str) (i : Nat) (hi : (decompose t)[i]? = some Y) :
    mapOneB (X ++ str " as " ++ Y) = some (X' ++ str " as " ++ Y) ∧
    (decompose (subWW X X' true t))[i]? = some Y := by
  have hok : tabOK tableB = true := by decide
  obtain ⟨hX0, hXw', hT0, hTw'⟩ := tab_mem_props hok hmem
  constructor
  · exact mapOneB_alias X X' Y hmem hXw hYw
  · rw [subWW_decompose X X' hX0 hXw' hT0 hTw' t, List.getElem?_map, hi,
      Option.map_some']
    rw [mapRun, if_neg (by simpa using hne)]

/-- Witness for `C4_theorem`: the specifier `Edit as EditIcon` with mapping
`Edit → Pencil` on the body `"<EditIcon />"`. -/
theorem C4_witness :
    mapOneB (str "Edit" ++ str " as " ++ str "EditIcon") =
      some (str "Pencil" ++ str " as " ++ str "EditIcon") ∧
    (decompose (subWW (str "Edit") (str "Pencil") true (str "<EditIcon />")))[1]? =
      some (str "EditIcon") :=
  C4_theorem (str "Edit") (str "Pencil") (str "EditIcon") (by decide) (by decide)
    (by decide) (by decide) (str "<EditIcon />") 1 (by decide)

/-- C4 counterexample: `replace-icons.py` looks the whole specifier string up
in `ICON_MAPPINGS`, so the aliased specifier `AlertCircle as AC` is not a key
and is kept verbatim: the rewritten declaration still says `AlertCircle as
AC`, not `CircleAlert as AC`, refuting the claim for this cited script. -/
theorem C4_counterexample :
    processTextA (str "import \x7b AlertCircle as AC \x7d from \"lucide-react\"") =
      some (str "import \x7b AlertCircle as AC \x7d from \"@aliimam/icons\"") ∧
    hasSub (str "CircleAlert")
      (str "import \x7b AlertCircle as AC \x7d from \"@aliimam/icons\"") = false := by
  refine ⟨by decide, by decide⟩

/-! ## Claim C8 -/

theorem count_joinSep (c : Char) (sep : Str) :
    ∀ l : List Str, (∀ i ∈ l, c ∉ i) →
      List.count c (joinSep sep l) = (l.length - 1) * List.count c sep := by
  intro l
  induction l with
  | nil => intro _; simp [joinSep]
  | cons x l' ih =>
    intro h
    cases l' with
    | nil =>
      have : List.count c x = 0 :=
        List.count_eq_zero.mpr (h x (List.mem_cons_self x []))
      simp [joinSep, this]
    | cons y rest =>
      rw [joinSep, List.count_append, List.count_append]
      rw [ih (fun i hi => h i (List.mem_cons_of_mem x hi))]
      have hx : List.count c x = 0 :=
        List.count_eq_zero.mpr (h x (List.mem_cons_self x (y :: rest)))
      have hlen1 : (y :: rest).length - 1 = rest.length := by simp
      have hlen2 : (x :: y :: rest).length - 1 = rest.length + 1 := by simp
      rw [hx, hlen1, hlen2]
      ring

/-- C8 (amended): script B's declaration rewriter implements the threshold-3
policy — a migratable list of at most 3 specifiers renders with no newline
(single line), while 4 or more render one per line (`n + 1` newlines: one after
the opening brace, one before each subsequent specifier, one before the closing
brace).  Script A's rewriter always renders a single line, refuting the claim
as stated for the program as a whole (`C8_counterexample`). -/
theorem C8_theorem (mapped : List Str) (hnl : ∀ i ∈ mapped, ('\n' : Char) ∉ i) :
    List.count '\n' (buildImpB mapped) =
      if mapped.length ≤ 3 then 0 else mapped.length + 1 := by
  rw [buildImpB]
  split
  · rename_i hle
    rw [List.count_append, List.count_append]
    rw [count_joinSep '\n' (str ", ") mapped hnl]
    have h1 : List.count '\n' (str "import \x7b ") = 0 := by decide
    have h2 : List.count '\n' (str " \x7d from \"@aliimam/icons\";") = 0 := by decide
    have h3 : List.count '\n' (str ", ") = 0 := by decide
    rw [h1, h2, h3]
    simp
  · rename_i hgt
    rw [List.count_append, List.count_append]
    rw [count_joinSep '\n' (str ",\n  ") mapped hnl]
    have h1 : List.count '\n' (str "import \x7b\n  ") = 1 := by decide
    have h2 : List.count '\n' (str "\n\x7d from \"@aliimam/icons\";") = 1 := by decide
    have h3 : List.count '\n' (str ",\n  ") = 1 := by decide
    rw [h1, h2, h3]
    have h4 : 4 ≤ mapped.length := by omega
    omega

/-- Witness for `C8_theorem`: three specifiers render on one line (no newline),
four render one per line (five newlines). -/
theorem C8_witness :
    List.count '\n' (buildImpB [str "a", str "b", str "c"]) = 0 ∧
    List.count '\n' (buildImpB [str "a", str "b", str "c", str "d"]) = 5 := by
  constructor
  · have h := C8_theorem [str "a", str "b", str "c"] (by decide)
    simpa using h
  · have h := C8_theorem [str "a", str "b", str "c", str "d"] (by decide)
    simpa using h

/-- C8 counterexample: script A's declaration rewriter renders a four-specifier
list (threshold + 1) on a single line with no newline at all, refuting "a list
of threshold+1 or more entries renders one specifier per line". -/
theorem C8_counterexample :
    buildImpA [str "Clock", str "Star", str "Sun", str "Moon"] [] =
      str "import \x7b Clock, Star, Sun, Moon \x7d from \"@aliimam/icons\"" ∧
    List.count '\n'
      (buildImpA [str "Clock", str "Star", str "Sun", str "Moon"] []) = 0 := by
  refine ⟨by decide, by decide⟩

/-! ## Claim C9 -/

/-- A canonical multi-line `lucide-react` import declaration with a trailing
comma, one specifier per line. -/
def declMLB (names : List Str) : Str :=
  str "import \x7b\n  " ++ joinSep (str ",\n  ") names ++
    str ",\n\x7d from \"lucide-react\";"

/-- The brace-delimited specifier text of `declMLB`. -/
def innerML (names : List Str) : Str :=
  str "\n  " ++ joinSep (str ",\n  ") names ++ str ",\n"

theorem expectSeq_exact (p rest : Str) : expectSeq p (p ++ rest) = some rest := by
  rw [expectSeq, if_pos (pfx_append_self p rest)]
  rw [List.drop_left]

theorem expectCh_self (c : Char) (rest : Str) : expectCh c (c :: rest) = some rest := by
  rw [expectCh, if_pos (by simp)]

theorem expectQuote_dq (rest : Str) : expectQuote ('"' :: rest) = some rest := by
  rw [expectQuote, if_pos (by decide)]

theorem ws1_single {c d : Char} {Z : Str} (hc : wsChar c = true) (hd : wsChar d = false) :
    ws1 (c :: (d :: Z)) = some (d :: Z) := by
  rw [ws1, if_pos hc, List.dropWhile_cons, hd]
  rfl

/-- `takeWhile`/`dropWhile` split exactly at a run boundary. -/
theorem takeWhile_run (p : Char → Bool) :
    ∀ (r X : Str), (∀ c ∈ r, p c = true) →
      (X = [] ∨ ∃ d ds, X = d :: ds ∧ p d = false) →
      (r ++ X).takeWhile p = r ∧ (r ++ X).dropWhile p = X := by
  intro r
  induction r with
  | nil =>
    intro X _ hX
    rcases hX with rfl | ⟨d, ds, rfl, hd⟩
    · exact ⟨rfl, rfl⟩
    · rw [List.nil_append]
      constructor
      · rw [List.takeWhile_cons, hd]
        rfl
      · rw [List.dropWhile_cons, hd]
        rfl
  | cons a as ih =>
    intro X hall hX
    have ha : p a = true := hall a (List.mem_cons_self a as)
    have has : ∀ c ∈ as, p c = true := fun c hc => hall c (List.mem_cons_of_mem a hc)
    obtain ⟨ih1, ih2⟩ := ih X has hX
    constructor
    · rw [List.cons_append, List.takeWhile_cons, ha, if_pos rfl, ih1]
    · rw [List.cons_append, List.dropWhile_cons, ha, if_pos rfl, ih2]

theorem joinSep_mem (sep : Str) :
    ∀ (l : List Str) (x : Char), x ∈ joinSep sep l → x ∈ sep ∨ ∃ i ∈ l, x ∈ i := by
  intro l
  induction l with
  | nil => intro x h; cases h
  | cons a l' ih =>
    intro x h
    cases l' with
    | nil =>
      right
      exact ⟨a, List.mem_cons_self a [], h⟩
    | cons b rest =>
      rw [joinSep] at h
      rcases List.mem_append.mp h with h1 | h2
      · rcases List.mem_append.mp h1 with h3 | h4
        · right; exact ⟨a, List.mem_cons_self a (b :: rest), h3⟩
        · left; exact h4
      · rcases ih x h2 with h5 | ⟨i, hi, hxi⟩
        · left; exact h5
        · right; exact ⟨i, List.mem_cons_of_mem a hi, hxi⟩

theorem wordChar_ne_of {c d : Char} (h : wordChar c = true) (hd : wordChar d = false) :
    c ≠ d := by
  intro he
  rw [he, hd] at h
  cases h

/-- Every character of the inner specifier text differs from the closing
brace. -/
theorem innerML_no_brace (names : List Str)
    (hw : ∀ n ∈ names, n ≠ [] ∧ homog true n = true) :
    ∀ c ∈ innerML names, (c != '\x7d') = true := by
  intro c hc
  rw [innerML] at hc
  have hne : c ≠ '\x7d' := by
    rcases List.mem_append.mp hc with h1 | h2
    · rcases List.mem_append.mp h1 with h3 | h4
      · exact (by decide : ∀ d ∈ str "\n  ", d ≠ '\x7d') c h3
      · rcases joinSep_mem _ names c h4 with h5 | ⟨i, hi, hxi⟩
        · exact (by decide : ∀ d ∈ str ",\n  ", d ≠ '\x7d') c h5
        · have := (hw i hi).2
          rw [homog, List.all_eq_true] at this
          exact wordChar_ne_of (by simpa using this c hxi) (by decide)
    · exact (by decide : ∀ d ∈ str ",\n", d ≠ '\x7d') c h2
  simpa using hne

/-- Script B's import pattern matches a canonical multi-line declaration
exactly, capturing the brace-delimited specifier text. -/
theorem matchImpB_decl (names : List Str) (rest : Str)
    (hw : ∀ n ∈ names, n ≠ [] ∧ homog true n = true) :
    matchImpB (declMLB names ++ rest) = some (innerML names, rest) := by
  have c1 : str "import \x7b\n  " = str "import" ++ (' ' :: ('\x7b' :: str "\n  ")) := rfl
  have c2 : str ",\n\x7d from \"lucide-react\";" =
      str ",\n" ++ ('\x7d' :: (' ' :: (str "from" ++
        (' ' :: ('"' :: (str "lucide-react" ++ ('"' :: [';'])))))) ) := rfl
  have hshape : declMLB names ++ rest =
      str "import" ++ (' ' :: ('\x7b' :: (innerML names ++
        ('\x7d' :: (' ' :: (str "from" ++ (' ' :: ('"' ::
          (str "lucide-react" ++ ('"' :: (';' :: rest))))))))))) := by
    rw [declMLB, innerML, c1, c2]
    simp [List.append_assoc]
  rw [hshape, matchImpB]
  rw [expectSeq_exact (str "import") _, Option.some_bind]
  rw [ws1_single (by decide) (by decide), Option.some_bind]
  rw [expectCh_self '\x7b' _, Option.some_bind]
  have hbr : innerML names ++ ('\x7d' :: (' ' :: (str "from" ++ (' ' :: ('"' ::
      (str "lucide-react" ++ ('"' :: (';' :: rest)))))))) =
      innerML names ++ ('\x7d' :: (' ' :: (str "from" ++ (' ' :: ('"' ::
      (str "lucide-react" ++ ('"' :: (';' :: rest)))))))) := rfl
  obtain ⟨htw, hdw⟩ := takeWhile_run (fun c => c != '\x7d') (innerML names)
    ('\x7d' :: (' ' :: (str "from" ++ (' ' :: ('"' ::
      (str "lucide-react" ++ ('"' :: (';' :: rest))))))))
    (innerML_no_brace names hw) (Or.inr ⟨'\x7d', _, rfl, by decide⟩)
  rw [htw, hdw]
  have hie : (innerML names).isEmpty = false := rfl
  rw [if_neg (by rw [hie]; simp)]
  rw [expectCh_self '\x7d' _, Option.some_bind]
  have hf : (' ' :: (str "from" ++ (' ' :: ('"' :: (str "lucide-react" ++
      ('"' :: (';' :: rest))))))) = ' ' :: ('f' :: (str "rom" ++ (' ' :: ('"' ::
      (str "lucide-react" ++ ('"' :: (';' :: rest))))))) := rfl
  rw [hf, ws1_single (by decide) (by decide), Option.some_bind]
  have hg : ('f' :: (str "rom" ++ (' ' :: ('"' :: (str "lucide-react" ++
      ('"' :: (';' :: rest))))))) = str "from" ++ (' ' :: ('"' ::
      (str "lucide-react" ++ ('"' :: (';' :: rest))))) := rfl
  rw [hg, expectSeq_exact (str "from") _, Option.some_bind]
  rw [ws1_single (by decide) (by decide), Option.some_bind]
  rw [expectQuote_dq _, Option.some_bind]
  rw [expectSeq_exact (str "lucide-react") _, Option.some_bind]
  rw [expectQuote_dq _, Option.some_bind]
  rfl

/-- `re.search` finds the canonical declaration at the start of the file. -/
theorem scanB_decl (names : List Str) (rest : Str)
    (hw : ∀ n ∈ names, n ≠ [] ∧ homog true n = true) :
    scanB (declMLB names ++ rest) =
      some ([], declMLB names, innerML names, rest) := by
  have hshape : declMLB names ++ rest =
      'i' :: (List.drop 1 (declMLB names) ++ rest) := by
    rw [declMLB]
    rfl
  rw [hshape, scanB, ← hshape, matchImpB_decl names rest hw]
  have hlen : (declMLB names ++ rest).length - rest.length = (declMLB names).length := by
    rw [List.length_append]
    omega
  show some (([] : Str),
      List.take ((declMLB names ++ rest).length - rest.length)
        (declMLB names ++ rest), innerML names, rest) =
    some ([], declMLB names, innerML names, rest)
  rw [hlen, List.take_left]

theorem splitChar_ne_nil (sep : Char) : ∀ l : Str, splitChar sep l ≠ [] := by
  intro l
  cases l with
  | nil => simp [splitChar]
  | cons c cs =>
    rw [splitChar]
    split
    · simp
    · cases h : splitChar sep cs with
      | nil => simp
      | cons a b => simp

theorem splitChar_prepend (sep : Char) :
    ∀ (a l : Str), (∀ c ∈ a, (c == sep) = false) →
      ∃ h t, splitChar sep l = h :: t ∧ splitChar sep (a ++ l) = (a ++ h) :: t := by
  intro a
  induction a with
  | nil =>
    intro l _
    cases hs : splitChar sep l with
    | nil => exact absurd hs (splitChar_ne_nil sep l)
    | cons h t => exact ⟨h, t, rfl, by simpa using hs⟩
  | cons x a' ih =>
    intro l hc
    obtain ⟨h, t, hs, hps⟩ := ih l (fun c hc' => hc c (List.mem_cons_of_mem x hc'))
    refine ⟨h, t, hs, ?_⟩
    rw [List.cons_append, splitChar]
    rw [if_neg (by rw [hc x (List.mem_cons_self x a')]; simp), hps]
    rfl

theorem wordChar_no_comma {c : Char} (h : wordChar c = true) : (c == ',') = false := by
  simpa using wordChar_ne_of h (by decide)

/-- Splitting the canonical inner text on commas yields one padded part per
name plus the trailing-comma remnant. -/
theorem splitChar_innerML :
    ∀ names : List Str, names ≠ [] →
      (∀ n ∈ names, n ≠ [] ∧ homog true n = true) →
      splitChar ',' (innerML names) =
        names.map (fun n => str "\n  " ++ n) ++ [str "\n"] := by
  intro names
  induction names with
  | nil => intro h; exact absurd rfl h
  | cons x names' ih =>
    intro _ hw
    have hxw : homog true x = true := (hw x (List.mem_cons_self x names')).2
    have hxfree : ∀ c ∈ str "\n  " ++ x, (c == ',') = false := by
      intro c hc
      rcases List.mem_append.mp hc with h1 | h2
      · exact (by decide : ∀ d ∈ str "\n  ", (d == ',') = false) c h1
      · rw [homog, List.all_eq_true] at hxw
        exact wordChar_no_comma (by simpa using hxw c h2)
    cases names' with
    | nil =>
      have he : innerML [x] = (str "\n  " ++ x) ++ str ",\n" := by
        rw [innerML, joinSep]
      rw [he]
      obtain ⟨h, t, hs, hps⟩ := splitChar_prepend ',' (str "\n  " ++ x) (str ",\n") hxfree
      have hcomp : splitChar ',' (str ",\n") = [[], str "\n"] := rfl
      rw [hcomp] at hs
      cases hs
      rw [hps]
      simp
    | cons y rest' =>
      have he : innerML (x :: y :: rest') =
          (str "\n  " ++ x) ++ (',' :: innerML (y :: rest')) := by
        rw [innerML, innerML, joinSep]
        have hsep : str ",\n  " = ',' :: str "\n  " := rfl
        rw [hsep]
        simp [List.append_assoc]
      rw [he]
      obtain ⟨h, t, hs, hps⟩ := splitChar_prepend ',' (str "\n  " ++ x)
        (',' :: innerML (y :: rest')) hxfree
      have hstep : splitChar ',' (',' :: innerML (y :: rest')) =
          [] :: splitChar ',' (innerML (y :: rest')) := by
        rw [splitChar, if_pos (by simp)]
      rw [hstep, ih (by simp) (fun n hn => hw n (List.mem_cons_of_mem x hn))] at hs
      cases hs
      rw [hps]
      simp

theorem dropWhile_ws_prepend :
    ∀ (a l : Str), (∀ c ∈ a, wsChar c = true) → l.dropWhile wsChar = l →
      (a ++ l).dropWhile wsChar = l := by
  intro a
  induction a with
  | nil => intro l _ h; simpa using h
  | cons c cs ih =>
    intro l ha h
    rw [List.cons_append, List.dropWhile_cons, ha c (List.mem_cons_self c cs),
      if_pos rfl]
    exact ih l (fun d hd => ha d (List.mem_cons_of_mem c hd)) h

/-- `strip()` of a padded specifier recovers the bare name. -/
theorem pyStrip_pad {n : Str} (hne : n ≠ []) (hw : homog true n = true) :
    pyStrip (str "\n  " ++ n) = n := by
  have hall : ∀ c ∈ n, wsChar c = false := by
    intro c hc
    rw [homog, List.all_eq_true] at hw
    exact wordChar_not_ws (by simpa using hw c hc)
  have h1 : stripL (str "\n  " ++ n) = n := by
    rw [stripL]
    exact dropWhile_ws_prepend (str "\n  ") n (by decide)
      (dropWhile_head_false wsChar n hall)
  have h2 : stripR n = n := by
    rw [stripR, dropWhile_head_false wsChar n.reverse
      (fun c hc => hall c (List.mem_reverse.mp hc))]
    exact List.reverse_reverse n
  rw [pyStrip, h1, h2]

/-- C9 (amended): script B's Import Locator `extract_lucide_imports` handles a
declaration split across multiple lines with a trailing comma and internal
whitespace: it extracts the full statement and exactly the list of imported
names, each whitespace-stripped, with no empty specifier introduced by the
trailing comma.  Script A's inline extraction keeps the empty specifier
produced by a trailing comma (`C9_counterexample`). -/
theorem C9_theorem (names : List Str) (rest : Str) (hne : names ≠ [])
    (hw : ∀ n ∈ names, n ≠ [] ∧ homog true n = true) :
    extractB (declMLB names ++ rest) = some (declMLB names, names) := by
  rw [extractB, scanB_decl names rest hw]
  show some (declMLB names,
      List.filter (fun s => !List.isEmpty s)
        (List.map pyStrip (splitChar ',' (innerML names)))) =
    some (declMLB names, names)
  rw [splitChar_innerML names hne hw]
  have hmap : (names.map (fun n => str "\n  " ++ n) ++ [str "\n"]).map pyStrip =
      names ++ [[]] := by
    rw [List.map_append, List.map_map]
    have h1 : List.map (pyStrip ∘ fun n => str "\n  " ++ n) names =
        List.map id names :=
      List.map_congr_left (fun a ha => pyStrip_pad (hw a ha).1 (hw a ha).2)
    rw [h1, List.map_id]
    rfl
  rw [hmap]
  have hfil : (names ++ [[]]).filter (fun s => !s.isEmpty) = names := by
    rw [List.filter_append]
    have h2 : names.filter (fun s => !s.isEmpty) = names := by
      apply List.filter_eq_self.mpr
      intro a ha
      have := (hw a ha).1
      cases a with
      | nil => exact absurd rfl this
      | cons c cs => rfl
    rw [h2]
    have h3 : List.filter (fun s : Str => !List.isEmpty s) [[]] = [] := rfl
    rw [h3, List.append_nil]
  rw [hfil]

/-- Witness for `C9_theorem`: a two-name multi-line declaration with trailing
comma followed by a file body. -/
theorem C9_witness :
    extractB (declMLB [str "Clock", str "Star"] ++ str "\nbody") =
      some (declMLB [str "Clock", str "Star"], [str "Clock", str "Star"]) :=
  C9_theorem [str "Clock", str "Star"] (str "\nbody") (by decide) (by decide)

/-- C9 counterexample: script A's inline extraction of the same trailing-comma
declaration produces an empty specifier, refuting "no empty specifiers
introduced by a trailing comma" for the program as a whole. -/
theorem C9_counterexample :
    scanA (str "import \x7b AlertCircle, \x7d from \"lucide-react\"") =
      some ([], str "import \x7b AlertCircle, \x7d from \"lucide-react\"",
        str " AlertCircle, ", []) ∧
    iconsOfA (str " AlertCircle, ") = [str "AlertCircle", []] := by
  refine ⟨by decide, by decide⟩

/-! ## Claims C6 and C10 -/

/-- A canonical single-line `lucide-react` import declaration as matched by
script A's pattern. -/
def declSLA (names : List Str) : Str :=
  str "import \x7b " ++ joinSep (str ", ") names ++
    str " \x7d from \"lucide-react\""

/-- The brace-delimited specifier text of `declSLA`. -/
def innerSLA (names : List Str) : Str :=
  str " " ++ joinSep (str ", ") names ++ str " "

/-- Every character of the single-line specifier text differs from the closing
brace. -/
theorem innerSLA_no_brace (names : List Str)
    (hw : ∀ n ∈ names, n ≠ [] ∧ homog true n = true) :
    ∀ c ∈ innerSLA names, (c != '\x7d') = true := by
  intro c hc
  rw [innerSLA] at hc
  have hne : c ≠ '\x7d' := by
    rcases List.mem_append.mp hc with h1 | h2
    · rcases List.mem_append.mp h1 with h3 | h4
      · exact (by decide : ∀ d ∈ str " ", d ≠ '\x7d') c h3
      · rcases joinSep_mem _ names c h4 with h5 | ⟨i, hi, hxi⟩
        · exact (by decide : ∀ d ∈ str ", ", d ≠ '\x7d') c h5
        · have := (hw i hi).2
          rw [homog, List.all_eq_true] at this
          exact wordChar_ne_of (by simpa using this c hxi) (by decide)
    · exact (by decide : ∀ d ∈ str " ", d ≠ '\x7d') c h2
  simpa using hne

/-- Dropping `\s*` over a single whitespace character stops at the first
non-whitespace character. -/
theorem dropWhile_ws_pair (c d : Char) (hc : wsChar c = true)
    (hd : wsChar d = false) (Z : Str) :
    (c :: (d :: Z)).dropWhile wsChar = d :: Z := by
  rw [List.dropWhile_cons, hc, if_pos rfl, List.dropWhile_cons, hd]
  rfl

/-- Script A's import pattern matches a canonical single-line declaration
exactly, capturing the brace-delimited specifier text. -/
theorem matchImpA_decl (names : List Str) (rest : Str)
    (hw : ∀ n ∈ names, n ≠ [] ∧ homog true n = true) :
    matchImpA (declSLA names ++ rest) = some (innerSLA names, rest) := by
  have c1 : str "import \x7b " = str "import" ++ (' ' :: ('\x7b' :: str " ")) := rfl
  have c2 : str " \x7d from \"lucide-react\"" =
      str " " ++ ('\x7d' :: (' ' :: (str "from" ++
        (' ' :: ('"' :: (str "lucide-react" ++ ['"'])))))) := rfl
  have hshape : declSLA names ++ rest =
      str "import" ++ (' ' :: ('\x7b' :: (innerSLA names ++
        ('\x7d' :: (' ' :: (str "from" ++ (' ' :: ('"' ::
          (str "lucide-react" ++ ('"' :: rest)))))))))) := by
    rw [declSLA, innerSLA, c1, c2]
    simp [List.append_assoc]
  rw [hshape, matchImpA]
  rw [expectSeq_exact (str "import") _, Option.some_bind]
  rw [dropWhile_ws_pair ' ' '\x7b' (by decide) (by decide) _]
  rw [expectCh_self '\x7b' _, Option.some_bind]
  obtain ⟨htw, hdw⟩ := takeWhile_run (fun c => c != '\x7d') (innerSLA names)
    ('\x7d' :: (' ' :: (str "from" ++ (' ' :: ('"' ::
      (str "lucide-react" ++ ('"' :: rest)))))))
    (innerSLA_no_brace names hw) (Or.inr ⟨'\x7d', _, rfl, by decide⟩)
  rw [htw, hdw]
  have hie : (innerSLA names).isEmpty = false := rfl
  rw [if_neg (by rw [hie]; simp)]
  rw [expectCh_self '\x7d' _, Option.some_bind]
  have hf : (' ' :: (str "from" ++ (' ' :: ('"' :: (str "lucide-react" ++
      ('"' :: rest)))))) = ' ' :: ('f' :: (str "rom" ++ (' ' :: ('"' ::
      (str "lucide-react" ++ ('"' :: rest)))))) := rfl
  rw [hf, dropWhile_ws_pair ' ' 'f' (by decide) (by decide) _]
  have hg : ('f' :: (str "rom" ++ (' ' :: ('"' :: (str "lucide-react" ++
      ('"' :: rest)))))) = str "from" ++ (' ' :: ('"' ::
      (str "lucide-react" ++ ('"' :: rest)))) := rfl
  rw [hg, expectSeq_exact (str "from") _, Option.some_bind]
  rw [dropWhile_ws_pair ' ' '"' (by decide) (by decide) _]
  rw [expectQuote_dq _, Option.some_bind]
  rw [expectSeq_exact (str "lucide-react") _, Option.some_bind]
  rw [expectQuote_dq _, Option.some_bind]

/-- `re.search` for script A finds the canonical declaration at the start of
the file. -/
theorem scanA_decl (names : List Str) (rest : Str)
    (hw : ∀ n ∈ names, n ≠ [] ∧ homog true n = true) :
    scanA (declSLA names ++ rest) =
      some ([], declSLA names, innerSLA names, rest) := by
  have hshape : declSLA names ++ rest =
      'i' :: (List.drop 1 (declSLA names) ++ rest) := by
    rw [declSLA]
    rfl
  rw [hshape, scanA, ← hshape, matchImpA_decl names rest hw]
  have hlen : (declSLA names ++ rest).length - rest.length = (declSLA names).length := by
    rw [List.length_append]
    omega
  show some (([] : Str),
      List.take ((declSLA names ++ rest).length - rest.length)
        (declSLA names ++ rest), innerSLA names, rest) =
    some ([], declSLA names, innerSLA names, rest)
  rw [hlen, List.take_left]

/-- `strip()` of a specifier padded with whitespace on both sides recovers the
bare name. -/
theorem pyStrip_pad2 (a b n : Str) (ha : ∀ c ∈ a, wsChar c = true)
    (hb : ∀ c ∈ b, wsChar c = true) (hne : n ≠ []) (hw : homog true n = true) :
    pyStrip (a ++ n ++ b) = n := by
  have hall : ∀ c ∈ n, wsChar c = false := by
    intro c hc
    rw [homog, List.all_eq_true] at hw
    exact wordChar_not_ws (by simpa using hw c hc)
  have h1 : stripL (a ++ n ++ b) = n ++ b := by
    rw [stripL, List.append_assoc]
    apply dropWhile_ws_prepend a (n ++ b) ha
    cases n with
    | nil => exact absurd rfl hne
    | cons c cs =>
      rw [List.cons_append, List.dropWhile_cons,
        hall c (List.mem_cons_self c cs)]
      rfl
  have h2 : stripR (n ++ b) = n := by
    rw [stripR, List.reverse_append]
    rw [dropWhile_ws_prepend b.reverse n.reverse
      (fun c hc => hb c (List.mem_reverse.mp hc))
      (dropWhile_head_false wsChar n.reverse
        (fun c hc => hall c (List.mem_reverse.mp hc)))]
    exact List.reverse_reverse n
  rw [pyStrip, h1, h2]

/-- Script A's inline extraction of the canonical single-line specifier text
recovers exactly the names. -/
theorem iconsOfA_innerSLA :
    ∀ names : List Str, names ≠ [] →
      (∀ n ∈ names, n ≠ [] ∧ homog true n = true) →
      iconsOfA (innerSLA names) = names := by
  intro names
  induction names with
  | nil => intro h; exact absurd rfl h
  | cons x names' ih =>
    intro _ hw
    have hxw : homog true x = true := (hw x (List.mem_cons_self x names')).2
    have hxne : x ≠ [] := (hw x (List.mem_cons_self x names')).1
    have hxfree : ∀ c ∈ str " " ++ x, (c == ',') = false := by
      intro c hc
      rcases List.mem_append.mp hc with h1 | h2
      · exact (by decide : ∀ d ∈ str " ", (d == ',') = false) c h1
      · have hx := hxw
        rw [homog, List.all_eq_true] at hx
        exact wordChar_no_comma (by simpa using hx c h2)
    cases names' with
    | nil =>
      have he : innerSLA [x] = (str " " ++ x) ++ str " " := by
        rw [innerSLA, joinSep]
      rw [iconsOfA, he]
      obtain ⟨h, t, hs, hps⟩ := splitChar_prepend ',' (str " " ++ x)
        (str " ") hxfree
      have hc' : splitChar ',' (str " ") = [[' ']] := rfl
      rw [hc'] at hs
      cases hs
      rw [hps]
      simp only [List.map_cons, List.map_nil]
      rw [pyStrip_pad2 (str " ") [' '] x (by decide) (by decide) hxne hxw]
    | cons y rest' =>
      have he : innerSLA (x :: y :: rest') =
          (str " " ++ x) ++ (',' :: innerSLA (y :: rest')) := by
        rw [innerSLA, innerSLA, joinSep]
        have hsep : str ", " = ',' :: str " " := rfl
        rw [hsep]
        simp [List.append_assoc]
      rw [iconsOfA, he]
      obtain ⟨h, t, hs, hps⟩ := splitChar_prepend ',' (str " " ++ x)
        (',' :: innerSLA (y :: rest')) hxfree
      have hstep : splitChar ',' (',' :: innerSLA (y :: rest')) =
          [] :: splitChar ',' (innerSLA (y :: rest')) := by
        rw [splitChar, if_pos (by simp)]
      rw [hstep] at hs
      cases hs
      rw [hps]
      simp only [List.map_cons]
      have hih := ih (by simp) (fun n hn => hw n (List.mem_cons_of_mem x hn))
      rw [iconsOfA] at hih
      rw [pyStrip_pad2 (str " ") [] x (by decide) (by decide) hxne hxw, hih]

/-- A successful match of script A's pattern starts with the literal
`import`. -/
theorem matchImpA_pfx {l g r : Str} (h : matchImpA l = some (g, r)) :
    pfx (str "import") l = true := by
  rw [matchImpA] at h
  cases hp : expectSeq (str "import") l with
  | none => rw [hp, Option.none_bind] at h; cases h
  | some r1 =>
    rw [expectSeq] at hp
    split at hp
    · assumption
    · cases hp

/-- Script A's pattern cannot match at a head character other than `i`. -/
theorem matchImpA_noni {c : Char} {cs : Str} (h : (c == 'i') = false) :
    matchImpA (c :: cs) = none := by
  have hne : c ≠ 'i' := by simpa using h
  have hp : pfx (str "import") (c :: cs) = false := by
    show (('i' == c) && pfx (str "mport") cs) = false
    have h2 : ('i' == c) = false := by simp [Ne.symm hne]
    rw [h2, Bool.false_and]
  rw [matchImpA, expectSeq, if_neg (by simp [hp]), Option.none_bind]

/-- `re.sub` of script A's pattern is the identity on text without the
substring `import`. -/
theorem resubA_noimp (repl : Str) : ∀ l : Str,
    hasSub (str "import") l = false → resubA repl l = l := by
  intro l
  induction l with
  | nil => intro _; rfl
  | cons c cs ih =>
    intro h
    simp only [hasSub, Bool.or_eq_false_iff] at h
    have hm : matchImpA (c :: cs) = none := by
      cases hmm : matchImpA (c :: cs) with
      | none => rfl
      | some x =>
        obtain ⟨g, r⟩ := x
        exact absurd (matchImpA_pfx hmm) (by rw [h.1]; simp)
    rw [resubA_nomatch hm, ih h.2]

/-- `re.sub` of script A's pattern copies a prefix containing no `i`. -/
theorem resubA_append_noni (repl : Str) :
    ∀ (a l : Str), (∀ c ∈ a, (c == 'i') = false) →
      resubA repl (a ++ l) = a ++ resubA repl l := by
  intro a
  induction a with
  | nil => intro l _; rfl
  | cons c cs ih =>
    intro l hc
    rw [List.cons_append,
      resubA_nomatch (matchImpA_noni (hc c (List.mem_cons_self c cs))),
      ih l (fun d hd => hc d (List.mem_cons_of_mem c hd))]
    rfl

/-- `re.sub` of script A's pattern replaces a leading canonical declaration. -/
theorem resubA_decl (repl : Str) (names : List Str) (rest : Str)
    (hw : ∀ n ∈ names, n ≠ [] ∧ homog true n = true) :
    resubA repl (declSLA names ++ rest) = repl ++ resubA repl rest := by
  have hshape : declSLA names ++ rest =
      'i' :: (List.drop 1 (declSLA names) ++ rest) := by
    rw [declSLA]
    rfl
  rw [hshape]
  exact resubA_match (by rw [← hshape]; exact matchImpA_decl names rest hw)

/-- One gated JSX-tag substitution step of script A's mapping loop. -/
def tagStep (g acc : Str) (p : Str × Str) : Str :=
  if hasSub p.1 g then subTagClose p.1 p.2 (subTagOpen p.1 p.2 acc) else acc

/-- The gated tag-substitution loop does nothing when no mapped old name
occurs in the specifier text. -/
theorem foldTag_id (g : Str) :
    ∀ (tab : List (Str × Str)) (x : Str), (∀ p ∈ tab, hasSub p.1 g = false) →
      tab.foldl (tagStep g) x = x := by
  intro tab
  induction tab with
  | nil => intro x _; rfl
  | cons q tab' ih =>
    intro x hall
    rw [List.foldl_cons]
    have hq : tagStep g x q = x := by
      rw [tagStep, if_neg (by rw [hall q (List.mem_cons_self q tab')]; simp)]
    rw [hq]
    exact ih x (fun p hp => hall p (List.mem_cons_of_mem q hp))

/-- Unfolding of script A's `process_file` on a located import. -/
theorem processTextA_eq (t pre stmt g r : Str)
    (h : scanA t = some (pre, stmt, g, r)) :
    processTextA t =
      (if ((iconsOfA g).filter (fun i => !missingA.contains i)).isEmpty then
        none
       else some (List.foldl (tagStep g)
         (resubA (buildImpA
            (((iconsOfA g).filter (fun i => !missingA.contains i)).map
              (lookupTab tableA))
            ((iconsOfA g).filter (fun i => missingA.contains i))) t)
         tableA)) := by
  rw [processTextA, h]
  rfl

/-- C6: when script A's legacy import mixes migratable and excluded
(`MISSING_ICONS`) specifiers, the rewritten output places, immediately after
the new `@aliimam/icons` declaration, a second import declaration still
targeting `lucide-react` with exactly the excluded specifiers unchanged and in
order, and the file body (hence every usage site of an excluded symbol) is
left unchanged. -/
theorem C6_theorem (migr excl : List Str) (rest : Str)
    (hmne : migr ≠ []) (hene : excl ≠ [])
    (hw : ∀ n ∈ migr ++ excl, n ≠ [] ∧ homog true n = true)
    (hmig : ∀ n ∈ migr, missingA.contains n = false)
    (hexc : ∀ n ∈ excl, missingA.contains n = true)
    (hrest : hasSub (str "import") rest = false)
    (hnokey : ∀ p ∈ tableA, hasSub p.1 (innerSLA (migr ++ excl)) = false) :
    processTextA (declSLA (migr ++ excl) ++ rest) =
      some ((str "import \x7b " ++
          joinSep (str ", ") (migr.map (lookupTab tableA)) ++
          str " \x7d from \"@aliimam/icons\"") ++
        ((str "\nimport \x7b " ++ joinSep (str ", ") excl ++
          str " \x7d from \"lucide-react\"") ++ rest)) := by
  rw [processTextA_eq _ _ _ _ _ (scanA_decl (migr ++ excl) rest hw)]
  rw [iconsOfA_innerSLA (migr ++ excl)
    (fun hemp => hmne (List.append_eq_nil.mp hemp).1) hw]
  have hfil1 : (migr ++ excl).filter (fun i => !missingA.contains i) = migr := by
    rw [List.filter_append,
      List.filter_eq_self.mpr (fun a ha => by rw [hmig a ha]; rfl),
      List.filter_eq_nil_iff.mpr (fun a ha => by rw [hexc a ha]; simp),
      List.append_nil]
  have hfil2 : (migr ++ excl).filter (fun i => missingA.contains i) = excl := by
    rw [List.filter_append,
      List.filter_eq_nil_iff.mpr (fun a ha => by rw [hmig a ha]; simp),
      List.filter_eq_self.mpr (fun a ha => hexc a ha),
      List.nil_append]
  rw [hfil1, hfil2]
  have hmE : migr.isEmpty = false := by
    cases migr with
    | nil => exact absurd rfl hmne
    | cons a l => rfl
  rw [if_neg (by rw [hmE]; simp)]
  rw [resubA_decl _ (migr ++ excl) rest hw, resubA_noimp _ rest hrest]
  rw [foldTag_id (innerSLA (migr ++ excl)) tableA _ hnokey]
  have heE : excl.isEmpty = false := by
    cases excl with
    | nil => exact absurd rfl hene
    | cons a l => rfl
  rw [buildImpA, if_neg (by rw [heE]; simp)]
  simp [List.append_assoc]

/-- Witness for `C6_theorem`: importing migratable `Clock` together with
excluded `GitBranch`. -/
theorem C6_witness :
    processTextA (declSLA ([str "Clock"] ++ [str "GitBranch"]) ++ str "\nbody") =
      some ((str "import \x7b " ++
          joinSep (str ", ") ([str "Clock"].map (lookupTab tableA)) ++
          str " \x7d from \"@aliimam/icons\"") ++
        ((str "\nimport \x7b " ++ joinSep (str ", ") [str "GitBranch"] ++
          str " \x7d from \"lucide-react\"") ++ str "\nbody")) :=
  C6_theorem [str "Clock"] [str "GitBranch"] (str "\nbody")
    (by decide) (by decide) (by decide) (by decide) (by decide) (by decide)
    (by decide)

/-- C10: when a file contains two legacy import declarations, script A parses
only the first: the replacement declaration is synthesized from the first
declaration's specifiers, and `re.sub` substitutes that same declaration for
both legacy imports, discarding the second declaration's specifier list. -/
theorem C10_theorem (names1 names2 : List Str) (mid rest : Str)
    (h1ne : names1 ≠ [])
    (hw1 : ∀ n ∈ names1, n ≠ [] ∧ homog true n = true)
    (hw2 : ∀ n ∈ names2, n ≠ [] ∧ homog true n = true)
    (hmig1 : ∀ n ∈ names1, missingA.contains n = false)
    (hmid : ∀ c ∈ mid, (c == 'i') = false)
    (hrest : hasSub (str "import") rest = false)
    (hnokey : ∀ p ∈ tableA, hasSub p.1 (innerSLA names1) = false) :
    processTextA (declSLA names1 ++ (mid ++ (declSLA names2 ++ rest))) =
      some ((str "import \x7b " ++
          joinSep (str ", ") (names1.map (lookupTab tableA)) ++
          str " \x7d from \"@aliimam/icons\"") ++
        (mid ++ ((str "import \x7b " ++
          joinSep (str ", ") (names1.map (lookupTab tableA)) ++
          str " \x7d from \"@aliimam/icons\"") ++ rest))) := by
  rw [processTextA_eq _ _ _ _ _
    (scanA_decl names1 (mid ++ (declSLA names2 ++ rest)) hw1)]
  rw [iconsOfA_innerSLA names1 h1ne hw1]
  have hfil1 : names1.filter (fun i => !missingA.contains i) = names1 :=
    List.filter_eq_self.mpr (fun a ha => by rw [hmig1 a ha]; rfl)
  have hfil2 : names1.filter (fun i => missingA.contains i) = [] :=
    List.filter_eq_nil_iff.mpr (fun a ha => by rw [hmig1 a ha]; simp)
  rw [hfil1, hfil2]
  have hmE : names1.isEmpty = false := by
    cases names1 with
    | nil => exact absurd rfl h1ne
    | cons a l => rfl
  rw [if_neg (by rw [hmE]; simp)]
  rw [resubA_decl _ names1 _ hw1, resubA_append_noni _ mid _ hmid,
    resubA_decl _ names2 _ hw2, resubA_noimp _ rest hrest]
  rw [foldTag_id (innerSLA names1) tableA _ hnokey]
  rw [buildImpA]
  simp [List.append_assoc]

/-- Witness for `C10_theorem`: two single-specifier imports (`Clock`, then
`Star`); both become the declaration derived from `Clock` alone. -/
theorem C10_witness :
    processTextA (declSLA [str "Clock"] ++ (str "\n" ++
        (declSLA [str "Star"] ++ str "\nbody"))) =
      some ((str "import \x7b " ++
          joinSep (str ", ") ([str "Clock"].map (lookupTab tableA)) ++
          str " \x7d from \"@aliimam/icons\"") ++
        (str "\n" ++ ((str "import \x7b " ++
          joinSep (str ", ") ([str "Clock"].map (lookupTab tableA)) ++
          str " \x7d from \"@aliimam/icons\"") ++ str "\nbody"))) :=
  C10_theorem [str "Clock"] [str "Star"] (str "\n") (str "\nbody")
    (by decide) (by decide) (by decide) (by decide) (by decide) (by decide)
    (by decide)

/-! ## Claim C5 -/

/-- C5 (amended): script A's usage rewriter is gated on the imported specifier
text: when no mapping-table old name occurs among the file's imported
specifiers, the file body after the declaration is byte-for-byte unchanged,
so a table entry whose old name is not imported triggers no body rewrite.
Script B applies every table substitution to the body regardless of the
file's import list (`C5_counterexample`). -/
theorem C5_theorem (names : List Str) (rest : Str) (hne : names ≠ [])
    (hw : ∀ n ∈ names, n ≠ [] ∧ homog true n = true)
    (hmig : ∀ n ∈ names, missingA.contains n = false)
    (hrest : hasSub (str "import") rest = false)
    (hnokey : ∀ p ∈ tableA, hasSub p.1 (innerSLA names) = false) :
    processTextA (declSLA names ++ rest) =
      some ((str "import \x7b " ++
          joinSep (str ", ") (names.map (lookupTab tableA)) ++
          str " \x7d from \"@aliimam/icons\"") ++ rest) := by
  rw [processTextA_eq _ _ _ _ _ (scanA_decl names rest hw)]
  rw [iconsOfA_innerSLA names hne hw]
  have hfil1 : names.filter (fun i => !missingA.contains i) = names :=
    List.filter_eq_self.mpr (fun a ha => by rw [hmig a ha]; rfl)
  have hfil2 : names.filter (fun i => missingA.contains i) = [] :=
    List.filter_eq_nil_iff.mpr (fun a ha => by rw [hmig a ha]; simp)
  rw [hfil1, hfil2]
  have hmE : names.isEmpty = false := by
    cases names with
    | nil => exact absurd rfl hne
    | cons a l => rfl
  rw [if_neg (by rw [hmE]; simp)]
  rw [resubA_decl _ names rest hw, resubA_noimp _ rest hrest]
  rw [foldTag_id (innerSLA names) tableA _ hnokey]
  rw [buildImpA]
  simp [List.append_assoc]

/-- Witness for `C5_theorem`: the file imports only `Clock`; the body mentions
the mapped name `Edit`, which is not imported, and survives script A's
processing unchanged. -/
theorem C5_witness :
    processTextA (declSLA [str "Clock"] ++ str "\nconst Edit = 1;") =
      some ((str "import \x7b " ++
          joinSep (str ", ") ([str "Clock"].map (lookupTab tableA)) ++
          str " \x7d from \"@aliimam/icons\"") ++ str "\nconst Edit = 1;") :=
  C5_theorem [str "Clock"] (str "\nconst Edit = 1;")
    (by decide) (by decide) (by decide) (by decide) (by decide)

/-- C5 counterexample: script B rewrites the body occurrence of the mapped
name `Edit` to `Pencil` although the file's legacy import declares only
`Clock` — a table entry whose old name is not among the imported specifiers
still triggers a body rewrite. -/
theorem C5_counterexample :
    processTextB (str "import \x7b Clock \x7d from \"lucide-react\";\nconst Edit = 1;") =
      str "import \x7b Clock \x7d from \"@aliimam/icons\";\nconst Pencil = 1;" := by
  decide

/-! ## Claim C2

Idempotence requires that the rewriting passes cannot re-create the very
substrings they eliminate.  `ovl r q` decides whether an occurrence of `r`
could intersect an inserted copy of `q`: `r` inside `q`, `q` inside `r`, a
proper suffix of `q` starting `r`, or a proper suffix of `r` starting `q`. -/

/-- Overlap of a search string `r` with an inserted replacement block `q`. -/
def ovl (r q : Str) : Bool :=
  hasSub r q || hasSub q r ||
  ((List.range q.length).any (fun i => (i != 0) && pfx (List.drop i q) r)) ||
  ((List.range r.length).any (fun j => (j != 0) && pfx (List.drop j r) q))

theorem pfx_take : ∀ (k : Nat) (r : Str), pfx (List.take k r) r = true := by
  intro k
  induction k with
  | zero => intro r; rfl
  | succ k ih =>
    intro r
    cases r with
    | nil => rfl
    | cons c cs =>
      rw [List.take_succ_cons]
      show ((c == c) && pfx (List.take k cs) cs) = true
      rw [ih cs]
      simp

theorem pfx_refl (w : Str) : pfx w w = true := by
  have := pfx_take w.length w
  rwa [List.take_length] at this

/-- A prefix of `a ++ b` is a prefix of `a` or extends `a` into `b`. -/
theorem pfx_append_split :
    ∀ (a w b : Str), pfx w (a ++ b) = true →
      pfx w a = true ∨ ∃ w2, w = a ++ w2 ∧ pfx w2 b = true := by
  intro a
  induction a with
  | nil =>
    intro w b h
    exact Or.inr ⟨w, rfl, by simpa using h⟩
  | cons c a' ih =>
    intro w b h
    cases w with
    | nil => exact Or.inl rfl
    | cons d w' =>
      have h' : ((d == c) && pfx w' (a' ++ b)) = true := h
      rw [Bool.and_eq_true] at h'
      have hd : d = c := by simpa using h'.1
      rcases ih w' b h'.2 with h1 | ⟨w2, hw, hb⟩
      · left
        show ((d == c) && pfx w' a') = true
        rw [h1, h'.1]
        rfl
      · right
        exact ⟨w2, by rw [hw, hd]; rfl, hb⟩

theorem hasSub_of_pfx {w l : Str} (h : pfx w l = true) : hasSub w l = true := by
  cases l with
  | nil => exact h
  | cons c cs =>
    rw [hasSub, h]
    rfl

theorem hasSub_cons_parts {w : Str} {c : Char} {cs : Str}
    (h : hasSub w (c :: cs) = false) :
    pfx w (c :: cs) = false ∧ hasSub w cs = false := by
  rw [hasSub, Bool.or_eq_false_iff] at h
  exact h

theorem hasSub_suffix_mono {w : Str} :
    ∀ (l a : Str), a <:+ l → hasSub w a = true → hasSub w l = true := by
  intro l
  induction l with
  | nil =>
    intro a ha h
    rw [List.suffix_nil.mp ha] at h
    exact h
  | cons c cs ih =>
    intro a ha h
    rcases List.suffix_cons_iff.mp ha with rfl | ha'
    · exact h
    · rw [hasSub, ih a ha' h]
      simp

theorem hasSub_drop_false {w l : Str} (h : hasSub w l = false) (n : Nat) :
    hasSub w (List.drop n l) = false := by
  cases hx : hasSub w (List.drop n l) with
  | false => rfl
  | true =>
    rw [hasSub_suffix_mono l (List.drop n l) (List.drop_suffix n l) hx] at h
    cases h

/-- An occurrence of `w` in `a ++ b` lies in `a`, lies in `b`, or straddles
the boundary: a nonempty proper prefix of `w` is a suffix of `a` and the rest
of `w` starts `b`. -/
theorem hasSub_append_cases :
    ∀ (a b w : Str), hasSub w (a ++ b) = true →
      hasSub w a = true ∨ hasSub w b = true ∨
      ∃ k, 0 < k ∧ k < w.length ∧ List.take k w <:+ a ∧
        pfx (List.drop k w) b = true := by
  intro a
  induction a with
  | nil =>
    intro b w h
    exact Or.inr (Or.inl (by simpa using h))
  | cons c a' ih =>
    intro b w h
    rw [List.cons_append, hasSub, Bool.or_eq_true] at h
    rcases h with hp | hrest
    · rw [← List.cons_append] at hp
      rcases pfx_append_split (c :: a') w b hp with h1 | ⟨w2, hw, hb⟩
      · exact Or.inl (hasSub_of_pfx h1)
      · cases w2 with
        | nil =>
          rw [List.append_nil] at hw
          exact Or.inl (hasSub_of_pfx (by rw [hw]; exact pfx_refl _))
        | cons e w2' =>
          refine Or.inr (Or.inr ⟨(c :: a').length, by simp, ?_, ?_, ?_⟩)
          · rw [hw, List.length_append]
            simp
          · rw [hw, List.take_left]
          · rw [hw, List.drop_left]
            exact hb
    · rcases ih b w hrest with h1 | h2 | ⟨k, hk0, hkw, hks, hkp⟩
      · left
        rw [hasSub, h1]
        simp
      · exact Or.inr (Or.inl h2)
      · exact Or.inr (Or.inr ⟨k, hk0, hkw,
          hks.trans (List.suffix_cons c a'), hkp⟩)

/-- A nonempty proper prefix of `r` that is a suffix of `q` witnesses an
overlap. -/
theorem ovl_of_take_sfx {r q : Str} {k : Nat} (hk0 : 0 < k) (hkr : k < r.length)
    (hs : List.take k r <:+ q) : ovl r q = true := by
  obtain ⟨q1, hq⟩ := hs
  have hlen : (List.take k r).length = k := by
    rw [List.length_take]
    omega
  cases hq1 : q1 with
  | nil =>
    have hqe : q = List.take k r := by rw [← hq, hq1]; rfl
    have : hasSub q r = true := hasSub_of_pfx (by rw [hqe]; exact pfx_take k r)
    rw [ovl, this]
    simp
  | cons e q1' =>
    have hi0 : q1.length ≠ 0 := by rw [hq1]; simp
    have hilt : q1.length < q.length := by
      rw [← hq, List.length_append, hlen]
      omega
    have hdrop : List.drop q1.length q = List.take k r := by
      rw [← hq, List.drop_left]
    have hany : ((List.range q.length).any
        (fun i => (i != 0) && pfx (List.drop i q) r)) = true := by
      rw [List.any_eq_true]
      refine ⟨q1.length, List.mem_range.mpr hilt, ?_⟩
      rw [Bool.and_eq_true]
      exact ⟨by simpa using hi0, by rw [hdrop]; exact pfx_take k r⟩
    rw [ovl, hany]
    simp

/-- Unpacking `ovl r q = false`. -/
theorem ovl_parts {r q : Str} (h : ovl r q = false) :
    hasSub r q = false ∧ hasSub q r = false ∧
    (∀ j, j ≠ 0 → j < r.length → pfx (List.drop j r) q = false) := by
  rw [ovl] at h
  simp only [Bool.or_eq_false_iff] at h
  obtain ⟨⟨⟨h1, h2⟩, _⟩, h4⟩ := h
  refine ⟨h1, h2, ?_⟩
  intro j hj0 hjr
  rw [List.any_eq_false] at h4
  have hb : ((j != 0) && pfx (List.drop j r) q) = false := by
    simpa using h4 j (List.mem_range.mpr hjr)
  rw [Bool.and_eq_false_iff] at hb
  rcases hb with h5 | h6
  · exact absurd h5 (by simpa using hj0)
  · exact h6

theorem ovl_ne_nil {r q : Str} (h : ovl r q = false) : r ≠ [] := by
  intro hr
  subst hr
  have : hasSub [] q = true := by
    cases q with
    | nil => rfl
    | cons c cs => rw [hasSub]; rfl
  rw [ovl, this] at h
  cases h

/-- Copied-character step: a full occurrence of `r` cannot start at a copied
character unless it already started there in the input. -/
theorem pfx_head_cons {r out cs : Str} {c : Char}
    (ih2 : ∀ j, 0 < j → j < r.length → pfx (List.drop j r) out = true →
      pfx (List.drop j r) cs = true)
    (hr0 : r ≠ []) (hpfx : pfx r (c :: cs) = false) :
    pfx r (c :: out) = false := by
  cases hx : pfx r (c :: out) with
  | false => rfl
  | true =>
    exfalso
    cases r with
    | nil => exact hr0 rfl
    | cons d r' =>
      have hx' : ((d == c) && pfx r' out) = true := hx
      rw [Bool.and_eq_true] at hx'
      cases r' with
      | nil =>
        have hcon : pfx (d :: ([] : Str)) (c :: cs) = true := by
          show ((d == c) && pfx [] cs) = true
          rw [hx'.1]
          rfl
        rw [hcon] at hpfx
        cases hpfx
      | cons e r'' =>
        have h3' : pfx (e :: r'') cs = true :=
          ih2 1 (by omega) (by simp only [List.length_cons]; omega) hx'.2
        have hcon : pfx (d :: (e :: r'')) (c :: cs) = true := by
          show ((d == c) && pfx (e :: r'') cs) = true
          rw [hx'.1, h3']
          rfl
        rw [hcon] at hpfx
        cases hpfx

/-- Copied-character step for proper suffixes of `r`. -/
theorem pfx_step_cons {r out cs : Str} {c : Char}
    (ih2 : ∀ j, 0 < j → j < r.length → pfx (List.drop j r) out = true →
      pfx (List.drop j r) cs = true) :
    ∀ j, 0 < j → j < r.length → pfx (List.drop j r) (c :: out) = true →
      pfx (List.drop j r) (c :: cs) = true := by
  intro j hj0 hjr hp
  cases hd : List.drop j r with
  | nil => rfl
  | cons e w' =>
    rw [hd] at hp
    have hp' : ((e == c) && pfx w' out) = true := hp
    rw [Bool.and_eq_true] at hp'
    have hw' : List.drop (j + 1) r = w' := by
      have h0 : List.drop 1 (List.drop j r) = w' := by
        rw [hd]
        rfl
      rw [← h0, List.drop_drop]
    have hlr : r.length - j = w'.length + 1 := by
      have := congrArg List.length hd
      simpa using this
    cases w' with
    | nil =>
      show ((e == c) && pfx [] cs) = true
      rw [hp'.1]
      rfl
    | cons f w'' =>
      have hlr' : r.length - j = w''.length + 2 := by simpa using hlr
      have hj1 : j + 1 < r.length := by omega
      have h4 : pfx (f :: w'') cs = true := by
        have := ih2 (j + 1) (by omega) hj1 (by rw [hw']; exact hp'.2)
        rwa [hw'] at this
      show ((e == c) && pfx (f :: w'') cs) = true
      rw [hp'.1, h4]
      rfl

/-- A proper suffix of `r` cannot start at an inserted block `q` when `r` and
`q` do not overlap. -/
theorem pfx_block_absurd {r q z : Str} (ho : ovl r q = false) :
    ∀ j, 0 < j → j < r.length → pfx (List.drop j r) (q ++ z) = true → False := by
  intro j hj0 hjr hp
  obtain ⟨h1, h2, h3⟩ := ovl_parts ho
  rcases pfx_append_split q (List.drop j r) z hp with h4 | ⟨w2, hw, _⟩
  · rw [h3 j (by omega) hjr] at h4
    cases h4
  · have h5 : pfx q (List.drop j r) = true := by
      rw [hw]
      exact pfx_append_self q w2
    have h6 : hasSub q r = true :=
      hasSub_suffix_mono r (List.drop j r) (List.drop_suffix j r)
        (hasSub_of_pfx h5)
    rw [h6] at h2
    cases h2

/-- No occurrence of `r` in an inserted block `q` followed by clean text. -/
theorem hasSub_block_false {r q z : Str} (ho : ovl r q = false)
    (hz : hasSub r z = false) : hasSub r (q ++ z) = false := by
  obtain ⟨h1, _, _⟩ := ovl_parts ho
  cases hx : hasSub r (q ++ z) with
  | false => rfl
  | true =>
    exfalso
    rcases hasSub_append_cases q z r hx with h4 | h5 | ⟨k, hk0, hkr, hks, _⟩
    · rw [h4] at h1
      cases h1
    · rw [h5] at hz
      cases hz
    · rw [ovl_of_take_sfx hk0 hkr hks] at ho
      cases ho

/-- `str.replace(p, q)` neither creates new occurrences of a non-overlapping
string `r` nor exposes a proper suffix of `r` as a new prefix. -/
theorem repOut_strong (p q r : Str) (ho : ovl r q = false) :
    ∀ (n : Nat) (l : Str), l.length ≤ n → hasSub r l = false →
      hasSub r (replaceAll p q l) = false ∧
      (∀ j, 0 < j → j < r.length →
        pfx (List.drop j r) (replaceAll p q l) = true →
        pfx (List.drop j r) l = true) := by
  intro n
  induction n with
  | zero =>
    intro l hl hsub
    have hnil : l = [] := List.eq_nil_of_length_eq_zero (Nat.le_zero.mp hl)
    subst hnil
    exact ⟨hsub, fun j _ _ hp => hp⟩
  | succ n ih =>
    intro l hl hsub
    cases l with
    | nil => exact ⟨hsub, fun j _ _ hp => hp⟩
    | cons c cs =>
      by_cases hcond : p ≠ [] ∧ pfx p (c :: cs) = true
      · have hout : replaceAll p q (c :: cs) =
            q ++ replaceAll p q (List.drop p.length (c :: cs)) := by
          rw [replaceAll_cons, if_pos hcond]
        have hp1 : 1 ≤ p.length := by
          cases hp : p with
          | nil => exact absurd hp hcond.1
          | cons a as => simp
        have hlen : (List.drop p.length (c :: cs)).length ≤ n := by
          rw [List.length_drop]
          simp only [List.length_cons] at hl ⊢
          omega
        obtain ⟨ih1, ih2⟩ := ih (List.drop p.length (c :: cs)) hlen
          (hasSub_drop_false hsub p.length)
        refine ⟨?_, ?_⟩
        · rw [hout]
          exact hasSub_block_false ho ih1
        · intro j hj0 hjr hp
          rw [hout] at hp
          exact (pfx_block_absurd ho j hj0 hjr hp).elim
      · have hout : replaceAll p q (c :: cs) = c :: replaceAll p q cs := by
          rw [replaceAll_cons, if_neg hcond]
        obtain ⟨hpfx, hsub'⟩ := hasSub_cons_parts hsub
        have hr0 : r ≠ [] := by
          intro hr
          subst hr
          rw [show pfx ([] : Str) (c :: cs) = true from rfl] at hpfx
          cases hpfx
        obtain ⟨ih1, ih2⟩ := ih cs
          (by simp only [List.length_cons] at hl; omega) hsub'
        refine ⟨?_, ?_⟩
        · rw [hout, hasSub, pfx_head_cons ih2 hr0 hpfx, ih1]
          rfl
        · intro j hj0 hjr hp
          rw [hout] at hp
          exact pfx_step_cons ih2 j hj0 hjr hp

/-- `str.replace(p, q)` leaves no occurrence of the pattern `p` itself when
`p` and `q` do not overlap. -/
theorem repSelf_strong (p q : Str) (ho : ovl p q = false) :
    ∀ (n : Nat) (l : Str), l.length ≤ n →
      hasSub p (replaceAll p q l) = false ∧
      (∀ j, 0 < j → j < p.length →
        pfx (List.drop j p) (replaceAll p q l) = true →
        pfx (List.drop j p) l = true) := by
  intro n
  induction n with
  | zero =>
    intro l hl
    have hnil : l = [] := List.eq_nil_of_length_eq_zero (Nat.le_zero.mp hl)
    subst hnil
    refine ⟨?_, fun j _ _ hp => hp⟩
    show pfx p [] = false
    cases hp : p with
    | nil => exact absurd hp (ovl_ne_nil ho)
    | cons a as => rfl
  | succ n ih =>
    intro l hl
    cases l with
    | nil =>
      refine ⟨?_, fun j _ _ hp => hp⟩
      show pfx p [] = false
      cases hp : p with
      | nil => exact absurd hp (ovl_ne_nil ho)
      | cons a as => rfl
    | cons c cs =>
      by_cases hcond : p ≠ [] ∧ pfx p (c :: cs) = true
      · have hout : replaceAll p q (c :: cs) =
            q ++ replaceAll p q (List.drop p.length (c :: cs)) := by
          rw [replaceAll_cons, if_pos hcond]
        have hp1 : 1 ≤ p.length := by
          cases hp : p with
          | nil => exact absurd hp hcond.1
          | cons a as => simp
        have hlen : (List.drop p.length (c :: cs)).length ≤ n := by
          rw [List.length_drop]
          simp only [List.length_cons] at hl ⊢
          omega
        obtain ⟨ih1, ih2⟩ := ih (List.drop p.length (c :: cs)) hlen
        refine ⟨?_, ?_⟩
        · rw [hout]
          exact hasSub_block_false ho ih1
        · intro j hj0 hjr hp
          rw [hout] at hp
          exact (pfx_block_absurd ho j hj0 hjr hp).elim
      · have hout : replaceAll p q (c :: cs) = c :: replaceAll p q cs := by
          rw [replaceAll_cons, if_neg hcond]
        have hpfx : pfx p (c :: cs) = false := by
          cases hx : pfx p (c :: cs) with
          | false => rfl
          | true => exact absurd ⟨ovl_ne_nil ho, hx⟩ hcond
        obtain ⟨ih1, ih2⟩ := ih cs
          (by simp only [List.length_cons] at hl; omega)
        refine ⟨?_, ?_⟩
        · rw [hout, hasSub, pfx_head_cons ih2 (ovl_ne_nil ho) hpfx, ih1]
          rfl
        · intro j hj0 hjr hp
          rw [hout] at hp
          exact pfx_step_cons ih2 j hj0 hjr hp

/-- A whole-word substitution pass neither creates new occurrences of a
non-overlapping string `r` nor exposes a proper suffix of `r`. -/
theorem subOut_strong (S T r : Str) (ho : ovl r T = false) :
    ∀ (n : Nat) (l : Str) (lb : Bool), l.length ≤ n → hasSub r l = false →
      hasSub r (subWW S T lb l) = false ∧
      (∀ j, 0 < j → j < r.length →
        pfx (List.drop j r) (subWW S T lb l) = true →
        pfx (List.drop j r) l = true) := by
  intro n
  induction n with
  | zero =>
    intro l lb hl hsub
    have hnil : l = [] := List.eq_nil_of_length_eq_zero (Nat.le_zero.mp hl)
    subst hnil
    exact ⟨hsub, fun j _ _ hp => hp⟩
  | succ n ih =>
    intro l lb hl hsub
    cases l with
    | nil => exact ⟨hsub, fun j _ _ hp => hp⟩
    | cons c cs =>
      by_cases hcond : S ≠ [] ∧ lb = true ∧ pfx S (c :: cs) = true ∧
          wordEnd (List.drop S.length (c :: cs)) = true
      · have hout : subWW S T lb (c :: cs) =
            T ++ subWW S T (!wordChar (S.getLastD '_'))
              (List.drop S.length (c :: cs)) := by
          rw [subWW_cons, if_pos hcond]
        have hp1 : 1 ≤ S.length := by
          cases hp : S with
          | nil => exact absurd hp hcond.1
          | cons a as => simp
        have hlen : (List.drop S.length (c :: cs)).length ≤ n := by
          rw [List.length_drop]
          simp only [List.length_cons] at hl ⊢
          omega
        obtain ⟨ih1, ih2⟩ := ih (List.drop S.length (c :: cs))
          (!wordChar (S.getLastD '_')) hlen
          (hasSub_drop_false hsub S.length)
        refine ⟨?_, ?_⟩
        · rw [hout]
          exact hasSub_block_false ho ih1
        · intro j hj0 hjr hp
          rw [hout] at hp
          exact (pfx_block_absurd ho j hj0 hjr hp).elim
      · have hout : subWW S T lb (c :: cs) =
            c :: subWW S T (!wordChar c) cs := by
          rw [subWW_cons, if_neg hcond]
        obtain ⟨hpfx, hsub'⟩ := hasSub_cons_parts hsub
        have hr0 : r ≠ [] := by
          intro hr
          subst hr
          rw [show pfx ([] : Str) (c :: cs) = true from rfl] at hpfx
          cases hpfx
        obtain ⟨ih1, ih2⟩ := ih cs (!wordChar c)
          (by simp only [List.length_cons] at hl; omega) hsub'
        refine ⟨?_, ?_⟩
        · rw [hout, hasSub, pfx_head_cons ih2 hr0 hpfx, ih1]
          rfl
        · intro j hj0 hjr hp
          rw [hout] at hp
          exact pfx_step_cons ih2 j hj0 hjr hp

theorem replaceAll_nosub (p q r l : Str) (ho : ovl r q = false)
    (h : hasSub r l = false) : hasSub r (replaceAll p q l) = false :=
  (repOut_strong p q r ho l.length l (Nat.le_refl _) h).1

theorem replaceAll_self (p q l : Str) (ho : ovl p q = false) :
    hasSub p (replaceAll p q l) = false :=
  (repSelf_strong p q ho l.length l (Nat.le_refl _)).1

theorem subWW_nosub (S T r l : Str) (lb : Bool) (ho : ovl r T = false)
    (h : hasSub r l = false) : hasSub r (subWW S T lb l) = false :=
  (subOut_strong S T r ho l.length l lb (Nat.le_refl _) h).1

/-- Folding a whole table of non-overlapping substitutions keeps a clean
string clean. -/
theorem applyTab_nosub (r : Str) : ∀ (tab : List (Str × Str)) (l : Str),
    (∀ p ∈ tab, ovl r p.2 = false) → hasSub r l = false →
    hasSub r (applyTab tab l) = false := by
  intro tab
  induction tab with
  | nil => intro l _ h; exact h
  | cons p tab' ih =>
    intro l hall h
    have hstep : applyTab (p :: tab') l = applyTab tab' (subWW p.1 p.2 true l) :=
      rfl
    rw [hstep]
    exact ih (subWW p.1 p.2 true l)
      (fun q hq => hall q (List.mem_cons_of_mem p hq))
      (subWW_nosub p.1 p.2 r l true (hall p (List.mem_cons_self p tab')) h)

/-- `str.replace` is the identity when the pattern is absent. -/
theorem replaceAll_noop (p q : Str) : ∀ l, hasSub p l = false →
    replaceAll p q l = l := by
  intro l
  induction l with
  | nil => intro _; rfl
  | cons c cs ih =>
    intro h
    obtain ⟨h1, h2⟩ := hasSub_cons_parts h
    have hc : ¬(p ≠ [] ∧ pfx p (c :: cs) = true) := by
      intro hc
      rw [h1] at hc
      cases hc.2
    rw [replaceAll_cons, if_neg hc, ih h2]

/-- The fold of script C's table over a single run is idempotent: keys map to
values that are not keys, non-keys stay put. -/
theorem mapTab_idem_C (r : Str) :
    mapTab tableC (mapTab tableC r) = mapTab tableC r := by
  have hcross : ∀ p ∈ tableC, ∀ q ∈ tableC, p.2 ≠ q.1 := by decide
  have hnd : (tableC.map Prod.fst).Nodup := by decide
  by_cases hk : ∃ p ∈ tableC, r = p.1
  · obtain ⟨p, hmem, hr⟩ := hk
    obtain ⟨S, T⟩ := p
    subst hr
    have hmem' : (r, T) ∈ tableC := hmem
    have h1 : mapTab tableC r = T := mapTab_eq_of_mem r T tableC hmem' hnd hcross
    rw [h1]
    exact mapTab_keep T tableC (fun q hq => hcross (r, T) hmem' q hq)
  · push_neg at hk
    have h1 : mapTab tableC r = r := mapTab_keep r tableC (fun q hq => hk q hq)
    rw [h1, h1]

/-- Script C's whole-word rename pass is idempotent. -/
theorem applyTab_idem_C (v : Str) :
    applyTab tableC (applyTab tableC v) = applyTab tableC v := by
  have hok : tabOK tableC = true := by decide
  rw [applyTab_eq_flat tableC hok (applyTab tableC v),
    applyTab_decompose tableC hok v, List.map_map]
  have hcomp : ∀ a ∈ decompose v,
      (mapTab tableC ∘ mapTab tableC) a = mapTab tableC a := by
    intro a _
    rw [Function.comp_apply]
    exact mapTab_idem_C a
  rw [List.map_congr_left hcomp, ← applyTab_eq_flat tableC hok v]

/-- C2 (amended): `replace_icons.py`'s per-file transformation is idempotent:
a second application returns the first application's output byte for byte, so
a second run reports every file unchanged.  `replace-lucide-icons.py` is not
idempotent: on a file with two legacy import declarations the first run
rewrites only the statement matched first, and a second run modifies the file
again (`C2_counterexample`). -/
theorem C2_theorem (t : Str) :
    processTextC (processTextC t) = processTextC t := by
  have hoDD : ovl fromLucideD fromAliD = false := by decide
  have hoDS : ovl fromLucideD fromAliS = false := by decide
  have hoSS : ovl fromLucideS fromAliS = false := by decide
  have hoTabD : ∀ p ∈ tableC, ovl fromLucideD p.2 = false := by decide
  have hoTabS : ∀ p ∈ tableC, ovl fromLucideS p.2 = false := by decide
  have h1 : hasSub fromLucideD (replaceAll fromLucideD fromAliD t) = false :=
    replaceAll_self _ _ _ hoDD
  have h2 : hasSub fromLucideS
      (replaceAll fromLucideS fromAliS (replaceAll fromLucideD fromAliD t)) =
      false :=
    replaceAll_self _ _ _ hoSS
  have h3 : hasSub fromLucideD
      (replaceAll fromLucideS fromAliS (replaceAll fromLucideD fromAliD t)) =
      false :=
    replaceAll_nosub _ _ _ _ hoDS h1
  have h4 : hasSub fromLucideD (processTextC t) = false := by
    rw [processTextC]
    exact applyTab_nosub _ tableC _ hoTabD h3
  have h5 : hasSub fromLucideS (processTextC t) = false := by
    rw [processTextC]
    exact applyTab_nosub _ tableC _ hoTabS h2
  rw [processTextC]
  rw [replaceAll_noop fromLucideD fromAliD _ h4]
  rw [replaceAll_noop fromLucideS fromAliS _ h5]
  rw [processTextC]
  exact applyTab_idem_C _

/-- C2 counterexample: `replace-lucide-icons.py` on a file with two legacy
declarations rewrites only the first-matched statement on the first run; the
second run changes the file again, so the engine is not idempotent and the
second run does not report the file as unchanged. -/
theorem C2_counterexample :
    processTextB (processTextB
        (str "import \x7b Clock \x7d from \"lucide-react\";import \x7b Star \x7d from \"lucide-react\";")) ≠
      processTextB
        (str "import \x7b Clock \x7d from \"lucide-react\";import \x7b Star \x7d from \"lucide-react\";") := by
  decide

end IconMig



